import Mathlib

/-!
# Word counter: `wordcounter.CountWords` and the display list of `main`

A shallow embedding of `learn/word_counter/wordcounter/wordcounter.go` and of the
list-building part of `learn/word_counter/main.go`.

Modelling conventions.

* A byte is a natural number below 256, `[]byte` is `List Nat`.
* A Go `string` that is scanned rune by rune is represented by the list of runes
  its UTF-8 decoding yields (`decodeUTF8`, following `utf8.DecodeRuneInString`:
  an ill-formed byte decodes to U+FFFD and has width one).  A `Char` is a Unicode
  scalar value, which is exactly what a well-formed UTF-8 sequence encodes.
* Positions in a text are rune positions.
* The Unicode tables behind `\p{L}`, `\p{N}` and `unicode.ToLower` for non-ASCII
  runes are not part of the repository; they are parameters (`UnicodeTables`).
* A Go `map[string]int` is an association list with pairwise distinct keys; a
  missing key reads as `0`.  Counts are natural numbers: a count never exceeds the
  number of bytes read, so the 64-bit `int` cannot overflow.
-/

namespace WordCounter

/-! ## The reader and `io.ReadAll` -/

/-- Errors a `Read` call may report: `io.EOF`, or a failure carrying some code. -/
inductive ReadError where
  | EOF : ReadError
  | failure (code : Nat) : ReadError
  deriving DecidableEq, Repr

/-- The outcome of one `Read` call: the bytes it delivered and its error value. -/
structure ReadResult where
  bytes : List Nat
  err : Option ReadError
  deriving DecidableEq, Repr

/-- An `io.Reader`, given by the outcomes of its successive `Read` calls.  A reader
whose script is exhausted reports `io.EOF`. -/
abbrev Reader := List ReadResult

/-- The loop of `io.ReadAll`: append what each `Read` delivers to the buffer `b`
until a call reports an error; `io.EOF` is turned into a nil error. -/
def ReadAllLoop : Reader → List Nat → List Nat × Option ReadError
  | [], b => (b, none)
  | res :: rest, b =>
    match res.err with
    | some ReadError.EOF => (b ++ res.bytes, none)
    | some e => (b ++ res.bytes, some e)
    | none => ReadAllLoop rest (b ++ res.bytes)

/-- `io.ReadAll(r)`. -/
def ReadAll (r : Reader) : List Nat × Option ReadError :=
  ReadAllLoop r []

/-- The bytes a reader delivers up to and including its first `Read` call that
reports an error (the concatenation of its chunks). -/
def delivered : Reader → List Nat
  | [] => []
  | res :: rest =>
    match res.err with
    | some _ => res.bytes
    | none => res.bytes ++ delivered rest

/-- The error with which reading the stream fails, if it does: the error of the
first `Read` call that reports one, unless that error is `io.EOF`. -/
def readError : Reader → Option ReadError
  | [] => none
  | res :: rest =>
    match res.err with
    | some ReadError.EOF => none
    | some e => some e
    | none => readError rest

/-! ## UTF-8 decoding of `string(data)` -/

/-- The rune U+FFFD (`utf8.RuneError`). -/
def RuneError : Char := Char.ofNat 0xFFFD

/-- A continuation byte, `0x80 ≤ b ≤ 0xBF`. -/
def isCont (b : Nat) : Bool := decide (0x80 ≤ b) && decide (b ≤ 0xBF)

/-- The range accepted for the second byte after the leading byte `b0`
(`acceptRanges` of package `utf8`). -/
def acceptSecond (b0 b1 : Nat) : Bool :=
  if b0 = 0xE0 then decide (0xA0 ≤ b1) && decide (b1 ≤ 0xBF)
  else if b0 = 0xED then decide (0x80 ≤ b1) && decide (b1 ≤ 0x9F)
  else if b0 = 0xF0 then decide (0x90 ≤ b1) && decide (b1 ≤ 0xBF)
  else if b0 = 0xF4 then decide (0x80 ≤ b1) && decide (b1 ≤ 0x8F)
  else isCont b1

/-- The runes of a byte string, read as `utf8.DecodeRuneInString` reads them:
one-byte, two-byte, three-byte and four-byte forms; every byte that does not start
a well-formed sequence yields `RuneError` and is skipped alone. -/
def decodeUTF8 : List Nat → List Char
  | [] => []
  | b0 :: rest =>
    if b0 < 0x80 then Char.ofNat b0 :: decodeUTF8 rest
    else if b0 < 0xC2 then RuneError :: decodeUTF8 rest
    else if b0 < 0xE0 then
      match rest with
      | b1 :: r1 =>
        if acceptSecond b0 b1 then
          Char.ofNat ((b0 % 32) * 64 + b1 % 64) :: decodeUTF8 r1
        else RuneError :: decodeUTF8 (b1 :: r1)
      | [] => [RuneError]
    else if b0 < 0xF0 then
      match rest with
      | b1 :: b2 :: r2 =>
        if acceptSecond b0 b1 && isCont b2 then
          Char.ofNat ((b0 % 16) * 4096 + (b1 % 64) * 64 + b2 % 64) :: decodeUTF8 r2
        else RuneError :: decodeUTF8 (b1 :: b2 :: r2)
      | [b1] => RuneError :: decodeUTF8 [b1]
      | [] => [RuneError]
    else if b0 < 0xF5 then
      match rest with
      | b1 :: b2 :: b3 :: r3 =>
        if acceptSecond b0 b1 && isCont b2 && isCont b3 then
          Char.ofNat ((b0 % 8) * 262144 + (b1 % 64) * 4096 + (b2 % 64) * 64 + b3 % 64)
            :: decodeUTF8 r3
        else RuneError :: decodeUTF8 (b1 :: b2 :: b3 :: r3)
      | [b1, b2] => RuneError :: decodeUTF8 [b1, b2]
      | [b1] => RuneError :: decodeUTF8 [b1]
      | [] => [RuneError]
    else RuneError :: decodeUTF8 rest

/-! ## Unicode data -/

/-- The Unicode data the program consults through the standard library and that is
not part of the repository: the category tables `\p{L}` and `\p{N}` used by the
regular expression, and the lower-case mapping `unicode.To(LowerCase, r)` that
`unicode.ToLower` applies to runes above `MaxASCII`. -/
structure UnicodeTables where
  isLetter : Char → Bool
  isNumber : Char → Bool
  lowerTable : Char → Char

/-- The apostrophe, U+0027. -/
def apostrophe : Char := Char.ofNat 39

/-- `unicode.ToLower(r)`: for `r ≤ MaxASCII` the letters `A`..`Z` are shifted by
`a - A` and every other rune is returned unchanged; above `MaxASCII` the case
table decides. -/
def unicodeToLower (U : UnicodeTables) (r : Char) : Char :=
  if r.toNat ≤ 127 then
    if 65 ≤ r.toNat ∧ r.toNat ≤ 90 then Char.ofNat (r.toNat + 32) else r
  else U.lowerTable r

/-- `strings.ToLower(w)`: every rune of `w` mapped by `unicode.ToLower`. -/
def ToLower (U : UnicodeTables) (w : List Char) : List Char :=
  w.map (unicodeToLower U)

/-- `strings.ReplaceAll(w, "'", "")`: every apostrophe of `w` deleted. -/
def ReplaceAllApostrophe (w : List Char) : List Char :=
  w.filter (fun c => !(c == apostrophe))

/-- The two statements of the loop body that turn a token into its counting key. -/
def normalize (U : UnicodeTables) (w : List Char) : List Char :=
  ReplaceAllApostrophe (ToLower U w)

/-! ## The regular expression `[\p{L}\p{N}']+` -/

/-- Membership in the character class `[\p{L}\p{N}']`. -/
def inClass (U : UnicodeTables) (c : Char) : Bool :=
  U.isLetter c || U.isNumber c || c == apostrophe

/-- The matcher for `[\p{L}\p{N}']+` run over the text left to right.  `pos` is the
position of the next rune, `cur` the start of the match in progress, if any.  A
match is opened at a class rune when none is in progress, extended over every
following class rune, and closed (reported as `(start, end)`) at the first
non-class rune or at the end of the text; the search then resumes there. -/
def scan (U : UnicodeTables) : Nat → Option Nat → List Char → List (Nat × Nat)
  | _, none, [] => []
  | pos, some st, [] => [(st, pos)]
  | pos, none, c :: cs =>
    if inClass U c then scan U (pos + 1) (some pos) cs else scan U (pos + 1) none cs
  | pos, some st, c :: cs =>
    if inClass U c then scan U (pos + 1) (some st) cs
    else (st, pos) :: scan U (pos + 1) none cs

/-- `re.FindAllStringIndex(s, -1)`: the location of every match. -/
def FindAllStringIndex (U : UnicodeTables) (s : List Char) : List (Nat × Nat) :=
  scan U 0 none s

/-- The substring `s[i:j]`. -/
def slice (s : List Char) (i j : Nat) : List Char :=
  (s.drop i).take (j - i)

/-- `re.FindAllString(s, -1)`: the text of every match. -/
def FindAllString (U : UnicodeTables) (s : List Char) : List (List Char) :=
  (FindAllStringIndex U s).map (fun m => slice s m.1 m.2)

/-! ## The frequency table -/

/-- A `map[string]int`: entries `(word, count)` with pairwise distinct words. -/
abbrev Table := List (List Char × Nat)

/-- The keys of the map. -/
def Table.keys (m : Table) : List (List Char) := m.map Prod.fst

/-- The read `m[w]`; a missing key reads as the zero value. -/
def Table.get : Table → List Char → Nat
  | [], _ => 0
  | (k, c) :: rest, w => if k = w then c else Table.get rest w

/-- The assignment `m[w] = v`: the entry of `w` is overwritten, or created. -/
def Table.set : Table → List Char → Nat → Table
  | [], w, v => [(w, v)]
  | (k, c) :: rest, w, v => if k = w then (k, v) :: rest else (k, c) :: Table.set rest w v

/-- The statement `m[w]++`. -/
def Table.incr (m : Table) (w : List Char) : Table :=
  m.set w (m.get w + 1)

/-- The sum of all counts stored in the map. -/
def Table.total (m : Table) : Nat := (m.map Prod.snd).sum

/-! ## `CountWords` -/

/-- The `for _, w := range words` loop of `CountWords`, started on the map
`counts`. -/
def countLoop (U : UnicodeTables) (words : List (List Char)) (counts : Table) : Table :=
  words.foldl (fun counts w => counts.incr (ReplaceAllApostrophe (ToLower U w))) counts

/-- The part of `CountWords` after the read: tokenize, then count into a fresh map. -/
def countText (U : UnicodeTables) (s : List Char) : Table :=
  countLoop U (FindAllString U s) []

/-- `CountWords(r)`: the pair (map, error) it returns; `none` is `nil`. -/
def CountWords (U : UnicodeTables) (r : Reader) : Option Table × Option ReadError :=
  match ReadAll r with
  | (_, some err) => (none, some err)
  | (data, none) => (some (countText U (decodeUTF8 data)), none)

/-! ## The display list of `main` -/

/-- The type `kv` declared in `main`. -/
structure kv where
  Word : List Char
  Count : Nat
  deriving DecidableEq, Repr

/-- Go's `<` on strings.  Strings are compared byte by byte; on well-formed UTF-8
this is the comparison of the rune sequences by code point. -/
def strLess : List Char → List Char → Bool
  | [], [] => false
  | [], _ :: _ => true
  | _ :: _, [] => false
  | a :: as, b :: bs =>
    if a.toNat < b.toNat then true
    else if b.toNat < a.toNat then false
    else strLess as bs

/-- The comparison closure handed to `sort.Slice` in `main`. -/
def less (a b : kv) : Bool :=
  if a.Count = b.Count then strLess a.Word b.Word
  else decide (a.Count > b.Count)

/-- One round of the insertion sort of package `sort`: the new element is placed
behind the elements of the sorted part it is not less than. -/
def insertSorted (x : kv) : List kv → List kv
  | [] => [x]
  | y :: ys => if less x y then x :: y :: ys else y :: insertSorted x ys

/-- `sort.Slice(list, less)` with the closure of `main`, as the insertion sort the
library runs on short slices.  (For entries with distinct words `less` is a strict
total order, so every correct sort returns this same list.) -/
def sortSlice (list : List kv) : List kv :=
  list.foldl (fun sorted x => insertSorted x sorted) []

/-- The entries of a map as `kv` values, in the order the map stores them. -/
def Table.entries (m : Table) : List kv := m.map (fun e => kv.mk e.1 e.2)

/-- The list `main` holds after `sort.Slice`, when the `range` over the map
enumerated its entries in the order `enum`. -/
def sortedList (enum : List kv) : List kv := sortSlice enum

/-! ## Specification-side notions -/

/-- The number of tokens in `words` whose counting key is `w`. -/
def occurrences (U : UnicodeTables) (words : List (List Char)) (w : List Char) : Nat :=
  words.countP (fun t => decide (normalize U t = w))

/-- The rune at position `p` of `s` exists and belongs to the class. -/
def classAt (U : UnicodeTables) (s : List Char) (p : Nat) : Bool :=
  match s[p]? with
  | some c => inClass U c
  | none => false

/-- The positions `i ≤ p < j` of `s` form a maximal non-empty run of class runes:
the run is non-empty and inside the text, every rune of it is a class rune, it
starts at the beginning of the text or right after a non-class rune, and it ends
at the end of the text or right before a non-class rune. -/
def MaximalRun (U : UnicodeTables) (s : List Char) (i j : Nat) : Prop :=
  i < j ∧ j ≤ s.length ∧ (∀ p < j, i ≤ p → classAt U s p = true) ∧
    (i = 0 ∨ (i - 1 < s.length ∧ classAt U s (i - 1) = false)) ∧
    (j = s.length ∨ (j < s.length ∧ classAt U s j = false))

instance (U : UnicodeTables) (s : List Char) (i j : Nat) : Decidable (MaximalRun U s i j) := by
  unfold MaximalRun
  infer_instance

/-- The state of the matcher is consistent with the text `s` read so far: with no
match in progress the previous rune, if any, is a non-class rune; a match in
progress started at a run boundary and covers class runes only. -/
def ScanInv (U : UnicodeTables) (s : List Char) (pos : Nat) : Option Nat → Prop
  | none => pos = 0 ∨ (pos - 1 < s.length ∧ classAt U s (pos - 1) = false)
  | some i => i < pos ∧ (∀ p < pos, i ≤ p → classAt U s p = true) ∧
      (i = 0 ∨ (i - 1 < s.length ∧ classAt U s (i - 1) = false))

/-- The Unicode tables restricted to ASCII: the letters are `A`..`Z` and `a`..`z`,
the numbers are `0`..`9`, and the case table changes nothing. -/
def asciiTables : UnicodeTables where
  isLetter := fun c =>
    (decide (65 ≤ c.toNat) && decide (c.toNat ≤ 90)) ||
      (decide (97 ≤ c.toNat) && decide (c.toNat ≤ 122))
  isNumber := fun c => decide (48 ≤ c.toNat) && decide (c.toNat ≤ 57)
  lowerTable := fun c => c

/-- The tables agree with Unicode on the ASCII range, where the letters are
`A`..`Z` and `a`..`z` and the numbers are `0`..`9`. -/
def AgreesOnASCII (U : UnicodeTables) : Prop :=
  ∀ c : Char, c.toNat ≤ 127 →
    U.isLetter c = asciiTables.isLetter c ∧ U.isNumber c = asciiTables.isNumber c

/-- The lower-case table, where `unicode.ToLower` consults it (above `MaxASCII`),
never yields one of the ASCII capitals `A`..`Z`. -/
def LowerNeverCapital (U : UnicodeTables) : Prop :=
  ∀ c : Char, 127 < c.toNat →
    ¬ (65 ≤ (U.lowerTable c).toNat ∧ (U.lowerTable c).toNat ≤ 90)

/-- The bytes of a string constant (its UTF-8 encoding). -/
def utf8Bytes (s : String) : List Nat :=
  (s.data.flatMap String.utf8EncodeChar).map UInt8.toNat

/-- The input of `TestCountWords_Basic`. -/
def testInput : List Nat :=
  utf8Bytes "Hello, world! Hello 123 hello-world don't DONT"

/-- A reader that delivers the given chunks, one per `Read` call, and then
reports `io.EOF`. -/
def chunkReader (chunks : List (List Nat)) : Reader :=
  chunks.map (fun c => ReadResult.mk c none)

/-- A reader delivering `Hello world` in three chunks, cut inside both words. -/
def splitReader : Reader :=
  chunkReader [utf8Bytes "Hel", utf8Bytes "lo wor", utf8Bytes "ld"]

/-- A reader delivering `Hello world` in one chunk. -/
def wholeReader : Reader :=
  chunkReader [utf8Bytes "Hello world"]

/-- A reader delivering a text in which `ABC` occurs twice and `abc` once. -/
def caseReader : Reader :=
  chunkReader [utf8Bytes "ABC abc, ABC x"]

/-- A reader delivering only separators. -/
def blankReader : Reader :=
  chunkReader [utf8Bytes " ,.- \n"]

/-- The reader of the basic test: the whole text in one `Read`, then `io.EOF`. -/
def testReader : Reader :=
  [ReadResult.mk testInput none, ReadResult.mk [] (some ReadError.EOF)]

/-- A small frequency table: `b` and `a` counted twice, `c` five times. -/
def sampleTable : Table :=
  [("b".data, 2), ("a".data, 2), ("c".data, 5)]

/-- The entries of `sampleTable`, enumerated in another order. -/
def sampleEnum : List kv :=
  [kv.mk "a".data 2, kv.mk "c".data 5, kv.mk "b".data 2]

/-! ## Truncation and source selection in `main` -/

/-- The value of `limit` after the guard `if limit <= 0 || limit > len(list)`:
the value of the `-top` flag, replaced by the length of the list when it is not
positive or exceeds that length. -/
def limit (topN : Int) (list : List kv) : Int :=
  if topN ≤ 0 ∨ topN > (list.length : Int) then (list.length : Int) else topN

/-- The statement `list = list[:limit]`. -/
def truncate (topN : Int) (list : List kv) : List kv :=
  list.take (limit topN list).toNat

/-- The list `main` prints: the entries in the enumeration order `enum` of the map,
sorted, then cut to the `-top` value `topN`. -/
def displayed (topN : Int) (enum : List kv) : List kv :=
  truncate topN (sortedList enum)

/-- Where `main` reads its input from. -/
inductive Source where
  | stdin : Source
  | file (path : String) : Source
  deriving DecidableEq, Repr

/-- `flag.Arg(i)`: the `i`-th positional argument, or the empty string when there
is none. -/
def Arg (args : List String) (i : Nat) : String :=
  args.getD i ""

/-- The value of `*filePath` after the first `if` of `main`: the `-file` flag,
replaced by the first positional argument when the flag is empty and there is a
positional argument. -/
def resolvedPath (filePath : String) (args : List String) : String :=
  if filePath = "" ∧ args.length > 0 then Arg args 0 else filePath

/-- The source `main` reads: standard input when the resolved path is empty, the
file at that path otherwise. -/
def inputSource (filePath : String) (args : List String) : Source :=
  if resolvedPath filePath args = "" then Source.stdin
  else Source.file (resolvedPath filePath args)

/-! ## Properties of the Unicode data used for the keys -/

/-- Lower-casing a class rune gives a class rune (the lower-case form of a letter is
a letter, that of a number is a number). -/
def LowerKeepsClass (U : UnicodeTables) : Prop :=
  ∀ c : Char, inClass U c = true → inClass U (unicodeToLower U c) = true

/-- The lower-case form of a class rune is its own lower-case form. -/
def LowerIdempotent (U : UnicodeTables) : Prop :=
  ∀ c : Char, inClass U c = true →
    unicodeToLower U (unicodeToLower U c) = unicodeToLower U c

/-- The lower-case table, where `unicode.ToLower` consults it (above `MaxASCII`),
never yields the apostrophe. -/
def LowerNeverApostrophe (U : UnicodeTables) : Prop :=
  ∀ c : Char, 127 < c.toNat → U.lowerTable c ≠ apostrophe

/-- The token consists of apostrophes only. -/
def apostropheOnly (t : List Char) : Bool :=
  t.all (fun c => c == apostrophe)

/-- A reader delivering the one-byte input that is a single apostrophe. -/
def apostropheReader : Reader :=
  chunkReader [[39]]

/-- A reader delivering a text with two tokens made of apostrophes only. -/
def quoteReader : Reader :=
  chunkReader [utf8Bytes "it's ' '' x"]

/-! # Theorems -/

/-! ## Facts about the frequency table -/

theorem Table.get_set (m : Table) (w k : List Char) (v : Nat) :
    (m.set w v).get k = if w = k then v else m.get k := by
  induction m with
  | nil => simp [Table.set, Table.get]
  | cons e rest ih =>
    obtain ⟨a, c⟩ := e
    by_cases h : a = w
    · subst h
      by_cases hk : a = k <;> simp [Table.set, Table.get, hk]
    · by_cases hk : a = k
      · subst hk
        have h2 : ¬ w = a := fun e => h e.symm
        simp [Table.set, Table.get, h, h2]
      · simp [Table.set, Table.get, h, hk, ih]

theorem Table.mem_set (m : Table) (w : List Char) (v : Nat) (e : List Char × Nat)
    (h : e ∈ m.set w v) : e = (w, v) ∨ e ∈ m := by
  induction m with
  | nil => simpa [Table.set] using h
  | cons x rest ih =>
    obtain ⟨a, c⟩ := x
    by_cases ha : a = w
    · subst ha
      simp only [Table.set, if_true, List.mem_cons] at h
      rcases h with h | h
      · exact Or.inl h
      · exact Or.inr (List.mem_cons_of_mem _ h)
    · simp only [Table.set, ha, if_false, List.mem_cons] at h
      rcases h with h | h
      · exact Or.inr (h ▸ List.mem_cons_self _ _)
      · rcases ih h with h | h
        · exact Or.inl h
        · exact Or.inr (List.mem_cons_of_mem _ h)

theorem Table.keys_set (m : Table) (w k : List Char) (v : Nat) :
    k ∈ (m.set w v).keys ↔ k = w ∨ k ∈ m.keys := by
  induction m with
  | nil => simp [Table.set, Table.keys]
  | cons x rest ih =>
    obtain ⟨a, c⟩ := x
    by_cases ha : a = w
    · subst ha
      simp [Table.set, Table.keys]
    · have ih2 : k ∈ List.map Prod.fst (Table.set rest w v) ↔ k = w ∨ k ∈ List.map Prod.fst rest := ih
      simp only [Table.set, ha, if_false, Table.keys, List.map_cons, List.mem_cons, ih2]
      tauto

theorem Table.nodup_set (m : Table) (w : List Char) (v : Nat) (h : m.keys.Nodup) :
    (m.set w v).keys.Nodup := by
  induction m with
  | nil => simp [Table.set, Table.keys]
  | cons x rest ih =>
    obtain ⟨a, c⟩ := x
    have h1 : a ∉ Table.keys rest ∧ (Table.keys rest).Nodup := by
      simpa [Table.keys] using h
    by_cases ha : a = w
    · subst ha
      simpa [Table.set, Table.keys] using h
    · have hk : a ∉ (Table.set rest w v).keys := by
        rw [Table.keys_set]
        rintro (h2 | h2)
        · exact ha h2
        · exact h1.1 h2
      have := ih h1.2
      simp only [Table.set, ha, if_false, Table.keys, List.map_cons, List.nodup_cons]
      exact ⟨hk, this⟩

theorem Table.total_set (m : Table) (w : List Char) (v : Nat) :
    (m.set w v).total + m.get w = m.total + v := by
  induction m with
  | nil => simp [Table.set, Table.get, Table.total]
  | cons x rest ih =>
    obtain ⟨a, c⟩ := x
    by_cases ha : a = w
    · subst ha
      simp [Table.set, Table.get, Table.total]
      omega
    · have ih2 : (List.map Prod.snd (Table.set rest w v)).sum + Table.get rest w
          = (List.map Prod.snd rest).sum + v := ih
      simp only [Table.set, ha, if_false, Table.get, Table.total, List.map_cons, List.sum_cons]
      omega

theorem Table.total_incr (m : Table) (w : List Char) :
    (m.incr w).total = m.total + 1 := by
  have := Table.total_set m w (m.get w + 1)
  unfold Table.incr
  omega

theorem Table.get_of_mem (m : Table) (h : m.keys.Nodup) (k : List Char) (c : Nat)
    (hm : (k, c) ∈ m) : m.get k = c := by
  induction m with
  | nil => simp at hm
  | cons x rest ih =>
    obtain ⟨a, d⟩ := x
    have h1 : a ∉ Table.keys rest ∧ (Table.keys rest).Nodup := by
      simpa [Table.keys] using h
    rcases List.mem_cons.1 hm with h2 | h2
    · cases h2
      simp [Table.get]
    · have hk : k ∈ Table.keys rest := List.mem_map.2 ⟨(k, c), h2, rfl⟩
      have hne : ¬ a = k := fun e => h1.1 (e ▸ hk)
      simp [Table.get, hne, ih h1.2 h2]

theorem Table.mem_of_mem_keys (m : Table) (k : List Char) (hk : k ∈ m.keys) :
    (k, m.get k) ∈ m := by
  induction m with
  | nil => simp [Table.keys] at hk
  | cons x rest ih =>
    obtain ⟨a, d⟩ := x
    by_cases ha : a = k
    · subst ha
      simp [Table.get]
    · have : k ∈ Table.keys rest := by
        have : k = a ∨ k ∈ List.map Prod.fst rest := by simpa [Table.keys] using hk
        rcases this with h | h
        · exact absurd h.symm ha
        · exact h
      simp only [Table.get, ha, if_false]
      exact List.mem_cons_of_mem _ (ih this)

theorem Table.get_eq_zero_of_not_mem (m : Table) (k : List Char) (hk : k ∉ m.keys) :
    m.get k = 0 := by
  induction m with
  | nil => rfl
  | cons x rest ih =>
    obtain ⟨a, d⟩ := x
    have h : ¬ a = k ∧ k ∉ Table.keys rest := by
      have : ¬ (k = a ∨ k ∈ List.map Prod.fst rest) := by simpa [Table.keys] using hk
      exact ⟨fun e => this (Or.inl e.symm), fun e => this (Or.inr e)⟩
    simp [Table.get, h.1, ih h.2]

/-! ## The counting loop -/

theorem countLoop_cons (U : UnicodeTables) (t : List Char) (ws : List (List Char)) (m : Table) :
    countLoop U (t :: ws) m = countLoop U ws (m.incr (normalize U t)) := rfl

theorem countLoop_get (U : UnicodeTables) (ws : List (List Char)) (m : Table) (w : List Char) :
    (countLoop U ws m).get w = m.get w + occurrences U ws w := by
  induction ws generalizing m with
  | nil => simp [countLoop, occurrences]
  | cons t ws ih =>
    rw [countLoop_cons, ih, Table.incr, Table.get_set]
    by_cases h : normalize U t = w
    · simp [occurrences, List.countP_cons, h]
      omega
    · simp [occurrences, List.countP_cons, h]

theorem countLoop_keys (U : UnicodeTables) (ws : List (List Char)) (m : Table) (w : List Char) :
    w ∈ (countLoop U ws m).keys ↔ w ∈ m.keys ∨ 1 ≤ occurrences U ws w := by
  induction ws generalizing m with
  | nil => simp [countLoop, occurrences]
  | cons t ws ih =>
    rw [countLoop_cons, ih, Table.incr, Table.keys_set]
    by_cases h : normalize U t = w
    · simp [occurrences, List.countP_cons, h]
    · have h2 : ¬ w = normalize U t := fun e => h e.symm
      simp [occurrences, List.countP_cons, h, h2]

theorem countLoop_nodup (U : UnicodeTables) (ws : List (List Char)) (m : Table)
    (h : m.keys.Nodup) : (countLoop U ws m).keys.Nodup := by
  induction ws generalizing m with
  | nil => simpa [countLoop] using h
  | cons t ws ih =>
    rw [countLoop_cons]
    exact ih _ (Table.nodup_set _ _ _ h)

theorem countLoop_total (U : UnicodeTables) (ws : List (List Char)) (m : Table) :
    (countLoop U ws m).total = m.total + ws.length := by
  induction ws generalizing m with
  | nil => simp [countLoop]
  | cons t ws ih =>
    rw [countLoop_cons, ih, Table.total_incr, List.length_cons]
    omega

theorem countText_nodup (U : UnicodeTables) (s : List Char) : (countText U s).keys.Nodup :=
  countLoop_nodup U _ [] (by simp [Table.keys])

theorem countText_get (U : UnicodeTables) (s : List Char) (w : List Char) :
    (countText U s).get w = occurrences U (FindAllString U s) w := by
  simp [countText, countLoop_get, Table.get]

theorem countText_keys (U : UnicodeTables) (s : List Char) (w : List Char) :
    w ∈ (countText U s).keys ↔ 1 ≤ occurrences U (FindAllString U s) w := by
  unfold countText
  rw [countLoop_keys]
  simp [Table.keys]

/-! ## The matcher finds the maximal runs -/

theorem drop_cons_inv {s : List Char} {pos : Nat} {c : Char} {cs : List Char}
    (h : s.drop pos = c :: cs) :
    s[pos]? = some c ∧ s.drop (pos + 1) = cs ∧ pos < s.length := by
  have hlt : pos < s.length := by
    by_contra hge
    have : s.drop pos = [] := List.drop_eq_nil_of_le (by omega)
    rw [this] at h
    cases h
  have h1 : s[pos]? = some c := by
    have := List.head?_drop s pos
    rw [h] at this
    simpa using this.symm
  have h2 : s.drop (pos + 1) = cs := by
    have := List.tail_drop s pos
    rw [h] at this
    simpa using this.symm
  exact ⟨h1, h2, hlt⟩

theorem classAt_of_get {U : UnicodeTables} {s : List Char} {p : Nat} {c : Char}
    (h : s[p]? = some c) : classAt U s p = inClass U c := by
  simp [classAt, h]

theorem classAt_lt {U : UnicodeTables} {s : List Char} {p : Nat}
    (h : classAt U s p = true) : p < s.length := by
  by_contra hge
  have : s[p]? = none := List.getElem?_eq_none (by omega)
  simp [classAt, this] at h

theorem scan_mem (U : UnicodeTables) (s : List Char) :
    ∀ (cs : List Char) (pos : Nat) (st : Option Nat), s.drop pos = cs → pos ≤ s.length →
      ScanInv U s pos st →
      ∀ m ∈ scan U pos st cs, MaximalRun U s m.1 m.2 ∧ st.getD pos ≤ m.1 := by
  intro cs
  induction cs with
  | nil =>
    intro pos st hd hle hinv m hm
    have hlen : pos = s.length := by
      have := List.drop_eq_nil_iff.1 hd
      omega
    cases st with
    | none => simp [scan] at hm
    | some i =>
      simp only [scan, List.mem_singleton] at hm
      subst hm
      obtain ⟨h1, h2, h3⟩ := hinv
      exact ⟨⟨h1, hle, h2, h3, Or.inl hlen⟩, le_refl _⟩
  | cons c cs ih =>
    intro pos st hd hle hinv m hm
    obtain ⟨hget, hdrop, hlt⟩ := drop_cons_inv hd
    have hcl : classAt U s pos = inClass U c := classAt_of_get hget
    cases st with
    | none =>
      by_cases hc : inClass U c = true
      · simp only [scan, hc, if_true] at hm
        have hinv2 : ScanInv U s (pos + 1) (some pos) := by
          refine ⟨by omega, ?_, hinv⟩
          intro p hp1 hp2
          have : p = pos := by omega
          rw [this, hcl, hc]
        have := ih (pos + 1) (some pos) hdrop (by omega) hinv2 m hm
        simpa using this
      · simp only [scan, hc] at hm
        have hinv2 : ScanInv U s (pos + 1) none := by
          right
          simp only [Nat.add_sub_cancel]
          exact ⟨hlt, by rw [hcl]; simpa using hc⟩
        have := ih (pos + 1) none hdrop (by omega) hinv2 m hm
        refine ⟨this.1, ?_⟩
        have h2 : pos + 1 ≤ m.1 := by simpa using this.2
        simp only [Option.getD_none]
        omega
    | some i =>
      obtain ⟨h1, h2, h3⟩ := hinv
      by_cases hc : inClass U c = true
      · simp only [scan, hc, if_true] at hm
        have hinv2 : ScanInv U s (pos + 1) (some i) := by
          refine ⟨by omega, ?_, h3⟩
          intro p hp1 hp2
          by_cases hp : p = pos
          · rw [hp, hcl, hc]
          · exact h2 p (by omega) hp2
        have := ih (pos + 1) (some i) hdrop (by omega) hinv2 m hm
        simpa using this
      · simp only [scan, hc] at hm
        rcases List.mem_cons.1 hm with hm | hm
        · subst hm
          refine ⟨⟨h1, hle, h2, h3, Or.inr ⟨hlt, ?_⟩⟩, le_refl _⟩
          rw [hcl]
          simpa using hc
        · have hinv2 : ScanInv U s (pos + 1) none := by
            right
            simp only [Nat.add_sub_cancel]
            exact ⟨hlt, by rw [hcl]; simpa using hc⟩
          have := ih (pos + 1) none hdrop (by omega) hinv2 m hm
          refine ⟨this.1, ?_⟩
          have h4 : pos + 1 ≤ m.1 := by simpa using this.2
          simp only [Option.getD_some]
          omega

theorem scan_lower (U : UnicodeTables) :
    ∀ (cs : List Char) (pos : Nat) (st : Option Nat), st.getD pos ≤ pos →
      ∀ m ∈ scan U pos st cs, st.getD pos ≤ m.1 := by
  intro cs
  induction cs with
  | nil =>
    intro pos st _ m hm
    cases st with
    | none => simp [scan] at hm
    | some i =>
      simp only [scan, List.mem_singleton] at hm
      subst hm
      simp
  | cons c cs ih =>
    intro pos st hst m hm
    cases st with
    | none =>
      by_cases hc : inClass U c = true
      · simp only [scan, hc, if_true] at hm
        have := ih (pos + 1) (some pos) (by simp) m hm
        simpa using this
      · simp only [scan, hc] at hm
        have := ih (pos + 1) none (by simp) m hm
        simp only [Option.getD_none] at this ⊢
        omega
    | some i =>
      simp only [Option.getD_some] at hst
      by_cases hc : inClass U c = true
      · simp only [scan, hc, if_true] at hm
        have := ih (pos + 1) (some i) (by simp; omega) m hm
        simpa using this
      · simp only [scan, hc] at hm
        rcases List.mem_cons.1 hm with hm | hm
        · subst hm
          simp
        · have := ih (pos + 1) none (by simp) m hm
          simp only [Option.getD_none, Option.getD_some] at this ⊢
          omega

theorem scan_pairwise (U : UnicodeTables) :
    ∀ (cs : List Char) (pos : Nat) (st : Option Nat),
      (scan U pos st cs).Pairwise (fun m n => m.2 < n.1) := by
  intro cs
  induction cs with
  | nil =>
    intro pos st
    cases st <;> simp [scan]
  | cons c cs ih =>
    intro pos st
    cases st with
    | none =>
      by_cases hc : inClass U c = true
      · simp only [scan, hc, if_true]
        exact ih _ _
      · simp only [scan, hc]
        exact ih _ _
    | some i =>
      by_cases hc : inClass U c = true
      · simp only [scan, hc, if_true]
        exact ih _ _
      · simp only [scan, hc]
        refine List.Pairwise.cons ?_ (ih _ _)
        intro n hn
        have := scan_lower U cs (pos + 1) none (by simp) n hn
        simp only [Option.getD_none] at this
        show pos < n.1
        omega

theorem scan_cover (U : UnicodeTables) (s : List Char) :
    ∀ (cs : List Char) (pos : Nat) (st : Option Nat), s.drop pos = cs →
      st.getD pos ≤ pos →
      ∀ p, st.getD pos ≤ p → classAt U s p = true →
        ∃ m ∈ scan U pos st cs, m.1 ≤ p ∧ p < m.2 := by
  intro cs
  induction cs with
  | nil =>
    intro pos st hd hst p hp hcl
    have hlen : s.length ≤ pos := List.drop_eq_nil_iff.1 hd
    have hpl := classAt_lt hcl
    cases st with
    | none =>
      simp only [Option.getD_none] at hp
      omega
    | some i =>
      simp only [Option.getD_some] at hp
      exact ⟨(i, pos), by simp [scan], hp, by show p < pos; omega⟩
  | cons c cs ih =>
    intro pos st hd hst p hp hcl
    obtain ⟨hget, hdrop, hlt⟩ := drop_cons_inv hd
    have hcp : classAt U s pos = inClass U c := classAt_of_get hget
    cases st with
    | none =>
      simp only [Option.getD_none] at hp
      by_cases hc : inClass U c = true
      · simp only [scan, hc, if_true]
        exact ih (pos + 1) (some pos) hdrop (by simp) p (by simpa using hp) hcl
      · simp only [scan, hc]
        have hne : p ≠ pos := by
          intro e
          rw [e, hcp] at hcl
          exact hc hcl
        exact ih (pos + 1) none hdrop (by simp) p (by simp; omega) hcl
    | some i =>
      simp only [Option.getD_some] at hp hst
      by_cases hc : inClass U c = true
      · simp only [scan, hc, if_true]
        exact ih (pos + 1) (some i) hdrop (by simp; omega) p (by simpa using hp) hcl
      · simp only [scan, hc]
        have hne : p ≠ pos := by
          intro e
          rw [e, hcp] at hcl
          exact hc hcl
        by_cases hlt2 : p < pos
        · exact ⟨(i, pos), List.mem_cons_self _ _, hp, hlt2⟩
        · obtain ⟨m, hm, h1, h2⟩ :=
            ih (pos + 1) none hdrop (by simp) p (by simp; omega) hcl
          exact ⟨m, List.mem_cons_of_mem _ hm, h1, h2⟩

theorem FindAllStringIndex_run (U : UnicodeTables) (s : List Char) (m : Nat × Nat)
    (hm : m ∈ FindAllStringIndex U s) : MaximalRun U s m.1 m.2 :=
  (scan_mem U s s 0 none (by simp) (Nat.zero_le _) (Or.inl rfl) m hm).1

theorem FindAllStringIndex_cover (U : UnicodeTables) (s : List Char) (p : Nat)
    (hp : classAt U s p = true) : ∃ m ∈ FindAllStringIndex U s, m.1 ≤ p ∧ p < m.2 :=
  scan_cover U s s 0 none (by simp) (by simp) p (by simp) hp

theorem MaximalRun_unique (U : UnicodeTables) (s : List Char) (i j k l p : Nat)
    (h1 : MaximalRun U s i j) (h2 : MaximalRun U s k l)
    (hp1 : i ≤ p ∧ p < j) (hp2 : k ≤ p ∧ p < l) : i = k ∧ j = l := by
  obtain ⟨a1, a2, a3, a4, a5⟩ := h1
  obtain ⟨b1, b2, b3, b4, b5⟩ := h2
  have key : ∀ q, classAt U s q = true → classAt U s q = false → False := by
    intro q e1 e2
    rw [e1] at e2
    cases e2
  constructor
  · by_contra hne
    rcases Nat.lt_or_gt_of_ne hne with h | h
    · rcases b4 with b4 | b4
      · omega
      · exact key _ (a3 (k - 1) (by omega) (by omega)) b4.2
    · rcases a4 with a4 | a4
      · omega
      · exact key _ (b3 (i - 1) (by omega) (by omega)) a4.2
  · by_contra hne
    rcases Nat.lt_or_gt_of_ne hne with h | h
    · rcases a5 with a5 | a5
      · omega
      · exact key _ (b3 j (by omega) (by omega)) a5.2
    · rcases b5 with b5 | b5
      · omega
      · exact key _ (a3 l (by omega) (by omega)) b5.2

theorem mem_slice {s : List Char} {i j : Nat} {c : Char} (h : c ∈ slice s i j) :
    ∃ p, i ≤ p ∧ p < j ∧ s[p]? = some c := by
  unfold slice at h
  obtain ⟨n, hn⟩ := List.mem_iff_getElem?.1 h
  rw [List.getElem?_take] at hn
  by_cases hlt : n < j - i
  · rw [if_pos hlt, List.getElem?_drop] at hn
    exact ⟨i + n, by omega, by omega, hn⟩
  · rw [if_neg hlt] at hn
    cases hn

theorem length_slice (s : List Char) (i j : Nat) (h : j ≤ s.length) :
    (slice s i j).length = j - i := by
  simp [slice]
  omega

/-- C3. The matches of the regular expression are exactly the maximal non-empty runs
of class runes, listed from left to right: a pair of positions is reported if and
only if it is a maximal run (non-empty, class runes only, bounded on each side by a
non-class rune or an end of the text); reported matches are strictly separated, so
they do not overlap; every token is non-empty and made of class runes; every class
rune of the text lies in exactly one match and no non-class rune lies in any. -/
theorem FindAllString_maximal_runs (U : UnicodeTables) (s : List Char) :
    FindAllString U s = (FindAllStringIndex U s).map (fun m => slice s m.1 m.2) ∧
    (∀ i j, (i, j) ∈ FindAllStringIndex U s ↔ MaximalRun U s i j) ∧
    (FindAllStringIndex U s).Pairwise (fun m n => m.2 < n.1) ∧
    (∀ t ∈ FindAllString U s, t ≠ [] ∧ ∀ c ∈ t, inClass U c = true) ∧
    (∀ p, classAt U s p = true →
      ∃! m, m ∈ FindAllStringIndex U s ∧ m.1 ≤ p ∧ p < m.2) ∧
    (∀ p, p < s.length → classAt U s p = false →
      ∀ m ∈ FindAllStringIndex U s, ¬ (m.1 ≤ p ∧ p < m.2)) := by
  refine ⟨rfl, ?_, scan_pairwise U s 0 none, ?_, ?_, ?_⟩
  · intro i j
    constructor
    · intro h
      exact FindAllStringIndex_run U s (i, j) h
    · intro h
      obtain ⟨m, hm, h1, h2⟩ := FindAllStringIndex_cover U s i (h.2.2.1 i h.1 (le_refl _))
      have hr := FindAllStringIndex_run U s m hm
      have := MaximalRun_unique U s i j m.1 m.2 i h hr ⟨le_refl _, h.1⟩ ⟨h1, h2⟩
      have e : m = (i, j) := Prod.ext this.1.symm this.2.symm
      rw [← e]
      exact hm
  · intro t ht
    obtain ⟨m, hm, rfl⟩ := List.mem_map.1 ht
    have hr := FindAllStringIndex_run U s m hm
    constructor
    · intro e
      have := length_slice s m.1 m.2 hr.2.1
      rw [e] at this
      have := hr.1
      simp at *
      omega
    · intro c hc
      obtain ⟨p, hp1, hp2, hp3⟩ := mem_slice hc
      have := hr.2.2.1 p hp2 hp1
      rwa [classAt_of_get hp3] at this
  · intro p hp
    obtain ⟨m, hm, h1, h2⟩ := FindAllStringIndex_cover U s p hp
    refine ⟨m, ⟨hm, h1, h2⟩, ?_⟩
    rintro n ⟨hn, h3, h4⟩
    have := MaximalRun_unique U s n.1 n.2 m.1 m.2 p (FindAllStringIndex_run U s n hn)
      (FindAllStringIndex_run U s m hm) ⟨h3, h4⟩ ⟨h1, h2⟩
    exact Prod.ext this.1 this.2
  · intro p _ hp m hm hin
    have := (FindAllStringIndex_run U s m hm).2.2.1 p hin.2 hin.1
    rw [hp] at this
    cases this

/-! ## Reading -/

theorem ReadAllLoop_eq (r : Reader) (b : List Nat) :
    ReadAllLoop r b = (b ++ delivered r, readError r) := by
  induction r generalizing b with
  | nil => simp [ReadAllLoop, delivered, readError]
  | cons res rest ih =>
    rcases hres : res.err with _ | e
    · simp [ReadAllLoop, delivered, readError, hres, ih]
    · cases e <;> simp [ReadAllLoop, delivered, readError, hres]

theorem ReadAll_eq (r : Reader) : ReadAll r = (delivered r, readError r) := by
  simp [ReadAll, ReadAllLoop_eq]

theorem CountWords_of_success (U : UnicodeTables) (r : Reader) (h : readError r = none) :
    CountWords U r = (some (countText U (decodeUTF8 (delivered r))), none) := by
  simp [CountWords, ReadAll_eq, h]

theorem CountWords_of_failure (U : UnicodeTables) (r : Reader) (e : ReadError)
    (h : readError r = some e) : CountWords U r = (none, some e) := by
  simp [CountWords, ReadAll_eq, h]

theorem delivered_chunkReader (chunks : List (List Nat)) :
    delivered (chunkReader chunks) = chunks.flatten := by
  induction chunks with
  | nil => rfl
  | cons c cs ih =>
    have : delivered (chunkReader cs) = cs.flatten := ih
    simp [chunkReader, delivered] at this ⊢
    exact this

theorem readError_chunkReader (chunks : List (List Nat)) :
    readError (chunkReader chunks) = none := by
  induction chunks with
  | nil => rfl
  | cons c cs ih =>
    have : readError (chunkReader cs) = none := ih
    simp [chunkReader, readError] at this ⊢
    exact this

/-! ## Independence of the tables outside the text -/

theorem scan_congr (U V : UnicodeTables) :
    ∀ (cs : List Char) (pos : Nat) (st : Option Nat),
      (∀ c ∈ cs, inClass U c = inClass V c) → scan U pos st cs = scan V pos st cs := by
  intro cs
  induction cs with
  | nil =>
    intro pos st _
    cases st <;> rfl
  | cons c cs ih =>
    intro pos st h
    have hc : inClass U c = inClass V c := h c (List.mem_cons_self _ _)
    have hcs : ∀ d ∈ cs, inClass U d = inClass V d := fun d hd => h d (List.mem_cons_of_mem _ hd)
    cases st with
    | none => simp only [scan, hc, ih _ _ hcs]
    | some i => simp only [scan, hc, ih _ _ hcs]

theorem mem_of_mem_slice {s : List Char} {i j : Nat} {c : Char} (h : c ∈ slice s i j) :
    c ∈ s := by
  obtain ⟨p, _, _, hp⟩ := mem_slice h
  exact List.mem_iff_getElem?.2 ⟨p, hp⟩

theorem normalize_congr (U V : UnicodeTables) (t : List Char)
    (h : ∀ c ∈ t, unicodeToLower U c = unicodeToLower V c) : normalize U t = normalize V t := by
  unfold normalize ToLower
  rw [List.map_congr_left h]

theorem countLoop_congr (U V : UnicodeTables) (ws : List (List Char)) (m : Table)
    (h : ∀ t ∈ ws, normalize U t = normalize V t) : countLoop U ws m = countLoop V ws m := by
  induction ws generalizing m with
  | nil => rfl
  | cons t ws ih =>
    rw [countLoop_cons, countLoop_cons, h t (List.mem_cons_self _ _)]
    exact ih _ (fun u hu => h u (List.mem_cons_of_mem _ hu))

theorem countText_congr (U V : UnicodeTables) (s : List Char)
    (h1 : ∀ c ∈ s, inClass U c = inClass V c)
    (h2 : ∀ c ∈ s, unicodeToLower U c = unicodeToLower V c) :
    countText U s = countText V s := by
  have hs : FindAllString U s = FindAllString V s := by
    unfold FindAllString FindAllStringIndex
    rw [scan_congr U V s 0 none h1]
  unfold countText
  rw [hs]
  apply countLoop_congr
  intro t ht
  obtain ⟨m, _, rfl⟩ := List.mem_map.1 ht
  exact normalize_congr U V _ (fun c hc => h2 c (mem_of_mem_slice hc))

theorem countText_ascii (U : UnicodeTables) (hU : AgreesOnASCII U) (s : List Char)
    (hs : ∀ c ∈ s, c.toNat ≤ 127) : countText U s = countText asciiTables s := by
  apply countText_congr
  · intro c hc
    obtain ⟨h1, h2⟩ := hU c (hs c hc)
    simp [inClass, h1, h2]
  · intro c hc
    simp [unicodeToLower, hs c hc]

/-! ## The contract of `CountWords` -/

/-- C1. When the read succeeds, `CountWords` returns a table that maps every string
`w` to the number of tokens of the input text whose normalization is `w`; `w` is a
key exactly when that number is at least one; every stored entry holds that number
for its word, which is at least one. -/
theorem CountWords_counts (U : UnicodeTables) (r : Reader) (h : readError r = none)
    (w : List Char) :
    ∃ table, CountWords U r = (some table, none) ∧
      table.get w = occurrences U (FindAllString U (decodeUTF8 (delivered r))) w ∧
      (w ∈ table.keys ↔ 1 ≤ occurrences U (FindAllString U (decodeUTF8 (delivered r))) w) ∧
      (∀ k c, (k, c) ∈ table →
        c = occurrences U (FindAllString U (decodeUTF8 (delivered r))) k ∧ 1 ≤ c) := by
  refine ⟨_, CountWords_of_success U r h, countText_get U _ w, countText_keys U _ w, ?_⟩
  intro k c hkc
  have hget := Table.get_of_mem _ (countText_nodup U _) k c hkc
  have hk : k ∈ (countText U (decodeUTF8 (delivered r))).keys :=
    List.mem_map.2 ⟨(k, c), hkc, rfl⟩
  rw [countText_get] at hget
  rw [countText_keys] at hk
  exact ⟨hget.symm, hget ▸ hk⟩

/-- C2. On the input of the basic test, read without error from any reader and with
tables that agree with Unicode on ASCII, `CountWords` returns no error and a table
with `hello` counted 3 times, `world` twice, `123` once and `dont` twice. -/
theorem CountWords_basic (U : UnicodeTables) (hU : AgreesOnASCII U) (r : Reader)
    (h1 : readError r = none) (h2 : delivered r = testInput) :
    ∃ table, CountWords U r = (some table, none) ∧
      table.get "hello".data = 3 ∧ table.get "world".data = 2 ∧
      table.get "123".data = 1 ∧ table.get "dont".data = 2 := by
  refine ⟨_, CountWords_of_success U r h1, ?_⟩
  rw [h2]
  have hd : decodeUTF8 testInput
      = "Hello, world! Hello 123 hello-world don't DONT".data := by decide
  rw [hd, countText_ascii U hU _ (by decide)]
  decide

/-- C5. When the read succeeds, the counts stored in the returned table add up to
the number of tokens extracted from the input text. -/
theorem CountWords_total (U : UnicodeTables) (r : Reader) (h : readError r = none) :
    ∃ table, CountWords U r = (some table, none) ∧
      table.total = (FindAllString U (decodeUTF8 (delivered r))).length := by
  refine ⟨_, CountWords_of_success U r h, ?_⟩
  unfold countText
  rw [countLoop_total]
  simp [Table.total]

theorem CountWords_counts_witness :
    readError wholeReader = none ∧
    ∃ table, CountWords asciiTables wholeReader = (some table, none) ∧
      table.get "hello".data
        = occurrences asciiTables
            (FindAllString asciiTables (decodeUTF8 (delivered wholeReader))) "hello".data ∧
      ("hello".data ∈ table.keys ↔
        1 ≤ occurrences asciiTables
            (FindAllString asciiTables (decodeUTF8 (delivered wholeReader))) "hello".data) ∧
      (∀ k c, (k, c) ∈ table →
        c = occurrences asciiTables
            (FindAllString asciiTables (decodeUTF8 (delivered wholeReader))) k ∧ 1 ≤ c) :=
  ⟨by decide, CountWords_counts asciiTables wholeReader (by decide) "hello".data⟩

theorem agreesOnASCII_asciiTables : AgreesOnASCII asciiTables :=
  fun _ _ => ⟨rfl, rfl⟩

theorem CountWords_basic_witness :
    AgreesOnASCII asciiTables ∧ readError testReader = none ∧
    delivered testReader = testInput ∧
    ∃ table, CountWords asciiTables testReader = (some table, none) ∧
      table.get "hello".data = 3 ∧ table.get "world".data = 2 ∧
      table.get "123".data = 1 ∧ table.get "dont".data = 2 :=
  ⟨agreesOnASCII_asciiTables, by decide, by decide,
    CountWords_basic asciiTables agreesOnASCII_asciiTables testReader (by decide) (by decide)⟩

theorem CountWords_total_witness :
    readError splitReader = none ∧
    ∃ table, CountWords asciiTables splitReader = (some table, none) ∧
      table.total = (FindAllString asciiTables (decodeUTF8 (delivered splitReader))).length :=
  ⟨by decide, CountWords_total asciiTables splitReader (by decide)⟩

/-! ## Normalization -/

theorem unicodeToLower_apostrophe (U : UnicodeTables) :
    unicodeToLower U apostrophe = apostrophe := rfl

theorem normalize_cons (U : UnicodeTables) (c : Char) (t : List Char) :
    normalize U (c :: t)
      = if unicodeToLower U c = apostrophe then normalize U t
        else unicodeToLower U c :: normalize U t := by
  by_cases h : unicodeToLower U c = apostrophe <;>
    simp [normalize, ToLower, ReplaceAllApostrophe, List.filter_cons, h]

theorem normalize_ReplaceAllApostrophe (U : UnicodeTables) (t : List Char) :
    normalize U (ReplaceAllApostrophe t) = normalize U t := by
  induction t with
  | nil => rfl
  | cons c t ih =>
    by_cases hc : c = apostrophe
    · subst hc
      have e : ReplaceAllApostrophe (apostrophe :: t) = ReplaceAllApostrophe t := by
        simp [ReplaceAllApostrophe, List.filter_cons]
      rw [e, ih, normalize_cons, unicodeToLower_apostrophe, if_pos rfl]
    · have e : ReplaceAllApostrophe (c :: t) = c :: ReplaceAllApostrophe t := by
        simp [ReplaceAllApostrophe, List.filter_cons, hc]
      rw [e, normalize_cons, normalize_cons, ih]

theorem ReplaceAllApostrophe_append (a b : List Char) :
    ReplaceAllApostrophe (a ++ b) = ReplaceAllApostrophe a ++ ReplaceAllApostrophe b := by
  simp [ReplaceAllApostrophe]

/-- C4. The counting key of a token is the token with every rune lower-cased and
then every apostrophe deleted, wherever it stands (in front, inside or at the
end), so the key holds no apostrophe; hence two tokens that differ only in their
apostrophes get the same key, as `it's` and `its` (key `its`) and `don't` and
`DONT` (key `dont`). -/
theorem normalize_spec (U : UnicodeTables) :
    (∀ t, normalize U t
      = (t.map (unicodeToLower U)).filter (fun c => !(c == apostrophe))) ∧
    (∀ t, apostrophe ∉ normalize U t) ∧
    (∀ a b, normalize U (a ++ apostrophe :: b) = normalize U (a ++ b)) ∧
    (∀ t1 t2, ReplaceAllApostrophe t1 = ReplaceAllApostrophe t2 →
      normalize U t1 = normalize U t2) ∧
    normalize U "it's".data = "its".data ∧ normalize U "its".data = "its".data ∧
    normalize U "don't".data = "dont".data ∧ normalize U "DONT".data = "dont".data := by
  refine ⟨?_, ?_, ?_, ?_, rfl, rfl, rfl, rfl⟩
  · intro t
    rfl
  · intro t h
    simp [normalize, ReplaceAllApostrophe] at h
  · intro a b
    rw [← normalize_ReplaceAllApostrophe U (a ++ apostrophe :: b),
      ← normalize_ReplaceAllApostrophe U (a ++ b)]
    congr 1
    rw [ReplaceAllApostrophe_append, ReplaceAllApostrophe_append]
    congr 1
  · intro t1 t2 h
    rw [← normalize_ReplaceAllApostrophe U t1, ← normalize_ReplaceAllApostrophe U t2, h]

/-! ## Case merging -/

theorem ofNat_add_32_toNat (n : Nat) (h1 : 65 ≤ n) (h2 : n ≤ 90) :
    (Char.ofNat (n + 32)).toNat = n + 32 := by
  interval_cases n <;> rfl

theorem unicodeToLower_not_capital (U : UnicodeTables) (hU : LowerNeverCapital U) (c : Char) :
    ¬ (65 ≤ (unicodeToLower U c).toNat ∧ (unicodeToLower U c).toNat ≤ 90) := by
  unfold unicodeToLower
  by_cases h : c.toNat ≤ 127
  · rw [if_pos h]
    by_cases h2 : 65 ≤ c.toNat ∧ c.toNat ≤ 90
    · rw [if_pos h2, ofNat_add_32_toNat _ h2.1 h2.2]
      omega
    · rw [if_neg h2]
      exact h2
  · rw [if_neg h]
    exact hU c (by omega)

theorem mem_normalize {U : UnicodeTables} {t : List Char} {d : Char}
    (h : d ∈ normalize U t) : ∃ c ∈ t, unicodeToLower U c = d := by
  unfold normalize ReplaceAllApostrophe ToLower at h
  have := (List.mem_filter.1 h).1
  obtain ⟨c, hc, e⟩ := List.mem_map.1 this
  exact ⟨c, hc, e⟩

theorem occurrences_pos {U : UnicodeTables} {ws : List (List Char)} {w : List Char}
    (h : 1 ≤ occurrences U ws w) : ∃ t ∈ ws, normalize U t = w := by
  unfold occurrences at h
  obtain ⟨t, ht, e⟩ := List.countP_pos_iff.1 h
  exact ⟨t, ht, by simpa using e⟩

theorem occurrences_abc (U : UnicodeTables) (ws : List (List Char))
    (h : ∀ t ∈ ws, normalize U t = "abc".data → t = "ABC".data ∨ t = "abc".data) :
    occurrences U ws "abc".data = ws.count "ABC".data + ws.count "abc".data := by
  induction ws with
  | nil => rfl
  | cons t ws ih =>
    have ih2 := ih (fun u hu => h u (List.mem_cons_of_mem _ hu))
    unfold occurrences at ih2 ⊢
    rw [List.countP_cons, List.count_cons, List.count_cons, ih2]
    by_cases h1 : t = "ABC".data
    · subst h1
      have e1 : normalize U "ABC".data = "abc".data := rfl
      have e2 : ("ABC".data == "abc".data) = false := by decide
      simp [e1, e2]
      omega
    · by_cases h2 : t = "abc".data
      · subst h2
        have e1 : normalize U "abc".data = "abc".data := rfl
        have e2 : ("abc".data == "ABC".data) = false := by decide
        simp [e1, e2]
        omega
      · have h3 : ¬ normalize U t = "abc".data := by
          intro e
          rcases h t (List.mem_cons_self _ _) e with e | e
          · exact h1 e
          · exact h2 e
        simp [h1, h2, h3]

/-- C6. Tokens that differ only in letter case are counted under one key.  When the
read succeeds, the case table yields no ASCII capital, and `ABC` and `abc` are the
only tokens of the input normalizing to `abc`, the returned table counts under
`abc` the occurrences of `ABC` plus the occurrences of `abc`, and `ABC` is not a
key.  In general two tokens with equal lower-case forms have the same key. -/
theorem CountWords_case_merge (U : UnicodeTables) (hU : LowerNeverCapital U) (r : Reader)
    (hr : readError r = none)
    (h : ∀ t ∈ FindAllString U (decodeUTF8 (delivered r)),
      normalize U t = "abc".data → t = "ABC".data ∨ t = "abc".data) :
    (∃ table, CountWords U r = (some table, none) ∧
      table.get "abc".data
        = (FindAllString U (decodeUTF8 (delivered r))).count "ABC".data
          + (FindAllString U (decodeUTF8 (delivered r))).count "abc".data ∧
      "ABC".data ∉ table.keys) ∧
    (∀ t1 t2, ToLower U t1 = ToLower U t2 → normalize U t1 = normalize U t2) := by
  refine ⟨⟨_, CountWords_of_success U r hr, ?_, ?_⟩, ?_⟩
  · rw [countText_get]
    exact occurrences_abc U _ h
  · intro hk
    rw [countText_keys] at hk
    obtain ⟨t, _, e⟩ := occurrences_pos hk
    have hA : Char.ofNat 65 ∈ normalize U t := by
      rw [e]
      decide
    obtain ⟨c, _, hc⟩ := mem_normalize hA
    have := unicodeToLower_not_capital U hU c
    rw [hc] at this
    exact this (by decide)
  · intro t1 t2 e
    unfold normalize
    rw [e]

theorem lowerNeverCapital_asciiTables : LowerNeverCapital asciiTables := by
  intro c hc
  show ¬ (65 ≤ c.toNat ∧ c.toNat ≤ 90)
  omega

theorem CountWords_case_merge_witness :
    LowerNeverCapital asciiTables ∧ readError caseReader = none ∧
    (∀ t ∈ FindAllString asciiTables (decodeUTF8 (delivered caseReader)),
      normalize asciiTables t = "abc".data → t = "ABC".data ∨ t = "abc".data) ∧
    (∃ table, CountWords asciiTables caseReader = (some table, none) ∧
      table.get "abc".data
        = (FindAllString asciiTables (decodeUTF8 (delivered caseReader))).count "ABC".data
          + (FindAllString asciiTables (decodeUTF8 (delivered caseReader))).count "abc".data ∧
      "ABC".data ∉ table.keys) ∧
    (∀ t1 t2, ToLower asciiTables t1 = ToLower asciiTables t2 →
      normalize asciiTables t1 = normalize asciiTables t2) :=
  ⟨lowerNeverCapital_asciiTables, by decide, by decide,
    CountWords_case_merge asciiTables lowerNeverCapital_asciiTables caseReader
      (by decide) (by decide)⟩

/-! ## Inputs without tokens -/

theorem FindAllString_eq_nil_iff (U : UnicodeTables) (s : List Char) :
    FindAllString U s = [] ↔ ∀ c ∈ s, inClass U c = false := by
  constructor
  · intro h c hc
    by_contra hcl
    have hcl2 : inClass U c = true := by simpa using hcl
    obtain ⟨p, hp⟩ := List.mem_iff_getElem?.1 hc
    have hat : classAt U s p = true := by rw [classAt_of_get hp, hcl2]
    obtain ⟨m, hm, _⟩ := FindAllStringIndex_cover U s p hat
    have hnil : FindAllStringIndex U s = [] := by
      unfold FindAllString at h
      exact List.map_eq_nil_iff.1 h
    rw [hnil] at hm
    cases hm
  · intro h
    unfold FindAllString
    rw [List.map_eq_nil_iff]
    by_contra hne
    obtain ⟨m, hm⟩ := List.exists_mem_of_ne_nil _ hne
    have hr := FindAllStringIndex_run U s m hm
    have hat := hr.2.2.1 m.1 hr.1 (le_refl _)
    have hlt := classAt_lt hat
    have hget : s[m.1]? = some s[m.1] := List.getElem?_eq_getElem hlt
    rw [classAt_of_get hget, h _ (List.getElem_mem hlt)] at hat
    cases hat

theorem countText_eq_nil_iff (U : UnicodeTables) (s : List Char) :
    countText U s = [] ↔ FindAllString U s = [] := by
  constructor
  · intro h
    have := countLoop_total U (FindAllString U s) []
    unfold countText at h
    rw [h] at this
    simp [Table.total] at this
    exact List.length_eq_zero.1 this.symm
  · intro h
    unfold countText
    rw [h]
    rfl

/-- C7. When the read succeeds and the input text holds no token, which is the case
exactly when it holds no class rune (in particular when it is empty), `CountWords`
returns an empty table and no error; conversely the returned table is empty only
if the input holds no token. -/
theorem CountWords_empty (U : UnicodeTables) (r : Reader) (hr : readError r = none) :
    (FindAllString U (decodeUTF8 (delivered r)) = []
      ↔ ∀ c ∈ decodeUTF8 (delivered r), inClass U c = false) ∧
    (delivered r = [] → FindAllString U (decodeUTF8 (delivered r)) = []) ∧
    ∃ table, CountWords U r = (some table, none) ∧
      (FindAllString U (decodeUTF8 (delivered r)) = [] → table = []) ∧
      (table = [] → FindAllString U (decodeUTF8 (delivered r)) = []) := by
  refine ⟨FindAllString_eq_nil_iff U _, ?_, _, CountWords_of_success U r hr,
    (countText_eq_nil_iff U _).2, (countText_eq_nil_iff U _).1⟩
  intro h
  rw [h]
  rfl

theorem CountWords_empty_witness :
    readError blankReader = none ∧
    (FindAllString asciiTables (decodeUTF8 (delivered blankReader)) = []
      ↔ ∀ c ∈ decodeUTF8 (delivered blankReader), inClass asciiTables c = false) ∧
    (delivered blankReader = [] →
      FindAllString asciiTables (decodeUTF8 (delivered blankReader)) = []) ∧
    ∃ table, CountWords asciiTables blankReader = (some table, none) ∧
      (FindAllString asciiTables (decodeUTF8 (delivered blankReader)) = [] → table = []) ∧
      (table = [] → FindAllString asciiTables (decodeUTF8 (delivered blankReader)) = []) :=
  ⟨by decide, CountWords_empty asciiTables blankReader (by decide)⟩

/-! ## Errors and chunking -/

/-- C8. `CountWords` returns an error exactly when reading the stream fails.  When
the read fails with error `e` it returns `e` and a nil table; when the read
succeeds it returns a table and a nil error.  The error is the one `io.ReadAll`
returns. -/
theorem CountWords_error (U : UnicodeTables) (r : Reader) :
    (∀ e, readError r = some e → CountWords U r = (none, some e)) ∧
    (readError r = none → ∃ table, CountWords U r = (some table, none)) ∧
    ((CountWords U r).2 ≠ none ↔ readError r ≠ none) ∧
    ((CountWords U r).1 = none ↔ readError r ≠ none) ∧
    (ReadAll r).2 = readError r ∧ (CountWords U r).2 = (ReadAll r).2 := by
  refine ⟨CountWords_of_failure U r, fun h => ⟨_, CountWords_of_success U r h⟩, ?_, ?_, ?_, ?_⟩
  · rcases h : readError r with _ | e
    · simp [CountWords_of_success U r h]
    · simp [CountWords_of_failure U r e h]
  · rcases h : readError r with _ | e
    · simp [CountWords_of_success U r h]
    · simp [CountWords_of_failure U r e h]
  · rw [ReadAll_eq]
  · rw [ReadAll_eq]
    rcases h : readError r with _ | e
    · simp [CountWords_of_success U r h]
    · simp [CountWords_of_failure U r e h]

theorem CountWords_chunkReader (U : UnicodeTables) (chunks : List (List Nat)) :
    CountWords U (chunkReader chunks)
      = (some (countText U (decodeUTF8 chunks.flatten)), none) := by
  rw [CountWords_of_success U _ (readError_chunkReader chunks), delivered_chunkReader]

/-- C9. The result of `CountWords` depends only on the bytes the stream delivers:
two readers that both succeed and whose chunks concatenate to the same byte
sequence give the same result, wherever the chunk boundaries fall. -/
theorem CountWords_chunking (U : UnicodeTables) (r1 r2 : Reader)
    (h1 : readError r1 = none) (h2 : readError r2 = none)
    (h : delivered r1 = delivered r2) :
    CountWords U r1 = CountWords U r2 ∧ ∃ table, CountWords U r1 = (some table, none) := by
  rw [CountWords_of_success U r1 h1, CountWords_of_success U r2 h2, h]
  exact ⟨rfl, _, rfl⟩

theorem CountWords_chunking_witness :
    readError splitReader = none ∧ readError wholeReader = none ∧
    delivered splitReader = delivered wholeReader ∧
    CountWords asciiTables splitReader = CountWords asciiTables wholeReader ∧
    ∃ table, CountWords asciiTables splitReader = (some table, none) :=
  ⟨by decide, by decide, by decide,
    CountWords_chunking asciiTables splitReader wholeReader (by decide) (by decide) (by decide)⟩

/-! ## The sorted list of `main` -/

theorem char_toNat_inj {a b : Char} (h : a.toNat = b.toNat) : a = b := by
  rw [← Char.ofNat_toNat a, ← Char.ofNat_toNat b, h]

theorem strLess_irrefl (a : List Char) : strLess a a = false := by
  induction a with
  | nil => rfl
  | cons c a ih => simp [strLess, ih]

theorem strLess_asymm : ∀ (a b : List Char), strLess a b = true → strLess b a = false := by
  intro a
  induction a with
  | nil =>
    intro b _
    cases b <;> rfl
  | cons c a ih =>
    intro b h
    cases b with
    | nil => simp [strLess] at h
    | cons d b =>
      simp only [strLess] at h ⊢
      by_cases h1 : c.toNat < d.toNat
      · have h2 : ¬ d.toNat < c.toNat := by omega
        simp [h1, h2]
      · by_cases h2 : d.toNat < c.toNat
        · simp [h1, h2] at h
        · simp only [h1, h2, if_false] at h ⊢
          exact ih b h

theorem strLess_trans : ∀ (a b c : List Char),
    strLess a b = true → strLess b c = true → strLess a c = true := by
  intro a
  induction a with
  | nil =>
    intro b c h1 h2
    cases b with
    | nil => simp [strLess] at h1
    | cons y b =>
      cases c with
      | nil => simp [strLess] at h2
      | cons z c => rfl
  | cons x a ih =>
    intro b c h1 h2
    cases b with
    | nil => simp [strLess] at h1
    | cons y b =>
      cases c with
      | nil => simp [strLess] at h2
      | cons z c =>
        simp only [strLess] at h1 h2 ⊢
        by_cases hxy : x.toNat < y.toNat
        · by_cases hyz : y.toNat < z.toNat
          · have : x.toNat < z.toNat := by omega
            simp [this]
          · by_cases hzy : z.toNat < y.toNat
            · simp [hyz, hzy] at h2
            · have : x.toNat < z.toNat := by omega
              simp [this]
        · by_cases hyx : y.toNat < x.toNat
          · simp [hxy, hyx] at h1
          · simp only [hxy, hyx, if_false] at h1
            by_cases hyz : y.toNat < z.toNat
            · have : x.toNat < z.toNat := by omega
              simp [this]
            · by_cases hzy : z.toNat < y.toNat
              · simp [hyz, hzy] at h2
              · simp only [hyz, hzy, if_false] at h2
                have e1 : ¬ x.toNat < z.toNat := by omega
                have e2 : ¬ z.toNat < x.toNat := by omega
                simp only [e1, e2, if_false]
                exact ih b c h1 h2

theorem strLess_total : ∀ (a b : List Char), a ≠ b →
    strLess a b = true ∨ strLess b a = true := by
  intro a
  induction a with
  | nil =>
    intro b h
    cases b with
    | nil => exact absurd rfl h
    | cons y b => exact Or.inl rfl
  | cons x a ih =>
    intro b h
    cases b with
    | nil => exact Or.inr rfl
    | cons y b =>
      simp only [strLess]
      by_cases hxy : x.toNat < y.toNat
      · simp [hxy]
      · by_cases hyx : y.toNat < x.toNat
        · simp [hyx]
        · have e : x = y := char_toNat_inj (by omega)
          subst e
          have hne : a ≠ b := fun e => h (by rw [e])
          simpa [hxy] using ih b hne

theorem strLess_iff_lex (a b : List Char) :
    strLess a b = true ↔ List.Lex (fun x y : Char => x.toNat < y.toNat) a b := by
  induction a generalizing b with
  | nil =>
    cases b with
    | nil => simp [strLess]
    | cons y b => simp [strLess, List.Lex.nil]
  | cons x a ih =>
    cases b with
    | nil => simp [strLess]
    | cons y b =>
      simp only [strLess]
      by_cases hxy : x.toNat < y.toNat
      · simp only [hxy, if_true, true_iff]
        exact List.Lex.rel hxy
      · by_cases hyx : y.toNat < x.toNat
        · simp only [hxy, hyx, if_true, if_false]
          constructor
          · intro h
            cases h
          · intro h
            cases h with
            | cons h => omega
            | rel h => exact absurd h hxy
        · have e : x = y := char_toNat_inj (by omega)
          subst e
          simp only [hxy, if_false, ih]
          constructor
          · intro h
            exact List.Lex.cons h
          · intro h
            cases h with
            | cons h => exact h
            | rel h => exact absurd h hxy

theorem less_asymm (a b : kv) (h : less a b = true) : less b a = false := by
  unfold less at h ⊢
  by_cases e : a.Count = b.Count
  · rw [if_pos e] at h
    rw [if_pos e.symm]
    exact strLess_asymm _ _ h
  · rw [if_neg e] at h
    have e2 : ¬ b.Count = a.Count := fun x => e x.symm
    rw [if_neg e2]
    have : b.Count < a.Count := by simpa using h
    simp
    omega

theorem less_trans (a b c : kv) (h1 : less a b = true) (h2 : less b c = true) :
    less a c = true := by
  unfold less at h1 h2 ⊢
  by_cases e1 : a.Count = b.Count
  · rw [if_pos e1] at h1
    by_cases e2 : b.Count = c.Count
    · rw [if_pos e2] at h2
      rw [if_pos (e1.trans e2)]
      exact strLess_trans _ _ _ h1 h2
    · rw [if_neg e2] at h2
      have h3 : c.Count < b.Count := by simpa using h2
      have e3 : ¬ a.Count = c.Count := by omega
      rw [if_neg e3]
      simp
      omega
  · rw [if_neg e1] at h1
    have h3 : b.Count < a.Count := by simpa using h1
    by_cases e2 : b.Count = c.Count
    · have e3 : ¬ a.Count = c.Count := by omega
      rw [if_neg e3]
      simp
      omega
    · rw [if_neg e2] at h2
      have h4 : c.Count < b.Count := by simpa using h2
      have e3 : ¬ a.Count = c.Count := by omega
      rw [if_neg e3]
      simp
      omega

theorem perm_insertSorted (x : kv) (l : List kv) : (insertSorted x l).Perm (x :: l) := by
  induction l with
  | nil => exact List.Perm.refl _
  | cons y ys ih =>
    by_cases h : less x y = true
    · simp only [insertSorted, h, if_true]
      exact List.Perm.refl _
    · simp only [insertSorted, h]
      exact ((List.Perm.cons y ih).trans (List.Perm.swap x y ys))

theorem sorted_insertSorted (x : kv) (l : List kv)
    (h : l.Pairwise (fun a b => less b a = false)) :
    (insertSorted x l).Pairwise (fun a b => less b a = false) := by
  induction l with
  | nil => simp [insertSorted]
  | cons y ys ih =>
    obtain ⟨hy, hys⟩ := List.pairwise_cons.1 h
    by_cases hxy : less x y = true
    · simp only [insertSorted, hxy, if_true]
      refine List.Pairwise.cons ?_ h
      intro z hz
      rcases List.mem_cons.1 hz with e | hz2
      · rw [e]
        exact less_asymm _ _ hxy
      · by_contra hzx
        have hzx2 : less z x = true := by simpa using hzx
        have := less_trans _ _ _ hzx2 hxy
        rw [hy z hz2] at this
        cases this
    · simp only [insertSorted, hxy]
      refine List.Pairwise.cons ?_ (ih hys)
      intro z hz
      rcases List.mem_cons.1 ((perm_insertSorted x ys).subset hz) with e | hz2
      · rw [e]
        simpa using hxy
      · exact hy z hz2

theorem foldl_insertSorted_perm (l acc : List kv) :
    (l.foldl (fun sorted x => insertSorted x sorted) acc).Perm (acc ++ l) := by
  induction l generalizing acc with
  | nil => simp
  | cons x l ih =>
    simp only [List.foldl_cons]
    refine (ih (insertSorted x acc)).trans ?_
    refine ((perm_insertSorted x acc).append_right l).trans ?_
    exact (List.perm_middle).symm

theorem foldl_insertSorted_sorted (l acc : List kv)
    (h : acc.Pairwise (fun a b => less b a = false)) :
    (l.foldl (fun sorted x => insertSorted x sorted) acc).Pairwise
      (fun a b => less b a = false) := by
  induction l generalizing acc with
  | nil => simpa using h
  | cons x l ih =>
    simp only [List.foldl_cons]
    exact ih _ (sorted_insertSorted x acc h)

theorem sortSlice_perm (l : List kv) : (sortSlice l).Perm l := by
  simpa [sortSlice] using foldl_insertSorted_perm l []

theorem sortSlice_sorted (l : List kv) :
    (sortSlice l).Pairwise (fun a b => less b a = false) :=
  foldl_insertSorted_sorted l [] List.Pairwise.nil

theorem not_less_distinct (a b : kv) (h1 : less b a = false) (h2 : a.Word ≠ b.Word) :
    b.Count < a.Count ∨ (a.Count = b.Count ∧ strLess a.Word b.Word = true) := by
  unfold less at h1
  by_cases e : b.Count = a.Count
  · rw [if_pos e] at h1
    right
    refine ⟨e.symm, ?_⟩
    rcases strLess_total _ _ h2 with h | h
    · exact h
    · rw [h1] at h
      cases h
  · rw [if_neg e] at h1
    left
    have : ¬ b.Count > a.Count := by simpa using h1
    omega

theorem entries_map_Word (m : Table) : m.entries.map kv.Word = m.keys := by
  simp [Table.entries, Table.keys, List.map_map, Function.comp_def]

/-- C10. For a frequency table (distinct keys) whose entries the `range` loop
enumerated in any order, the list `main` holds after sorting is a permutation of
the entries of the table, holding each entry `(word, count)` of the table and
nothing else, each word once; it is sorted by count descending and, among equal
counts, by word ascending in the order of Go strings. -/
theorem sortedList_sorted_perm (m : Table) (hm : m.keys.Nodup) (enum : List kv)
    (he : enum.Perm m.entries) :
    (sortedList enum).Perm m.entries ∧
    (∀ k c, kv.mk k c ∈ sortedList enum ↔ (k, c) ∈ m) ∧
    ((sortedList enum).map kv.Word).Nodup ∧
    (sortedList enum).Pairwise (fun a b =>
      b.Count < a.Count ∨ (a.Count = b.Count ∧ strLess a.Word b.Word = true)) := by
  have hp : (sortedList enum).Perm m.entries := (sortSlice_perm enum).trans he
  have hnd : ((sortedList enum).map kv.Word).Nodup := by
    rw [(hp.map kv.Word).nodup_iff, entries_map_Word]
    exact hm
  refine ⟨hp, ?_, hnd, ?_⟩
  · intro k c
    rw [hp.mem_iff]
    simp only [Table.entries, List.mem_map]
    constructor
    · rintro ⟨e, he1, he2⟩
      cases e
      cases he2
      exact he1
    · intro h
      exact ⟨(k, c), h, rfl⟩
  · have h1 : (sortedList enum).Pairwise (fun a b => less b a = false) := sortSlice_sorted enum
    have h2 : (sortedList enum).Pairwise (fun a b => a.Word ≠ b.Word) :=
      List.pairwise_map.1 hnd
    exact (h1.and h2).imp (fun h => not_less_distinct _ _ h.1 h.2)

theorem sortedList_sorted_perm_witness :
    sampleTable.keys.Nodup ∧ sampleEnum.Perm sampleTable.entries ∧
    (sortedList sampleEnum).Perm sampleTable.entries ∧
    (∀ k c, kv.mk k c ∈ sortedList sampleEnum ↔ (k, c) ∈ sampleTable) ∧
    ((sortedList sampleEnum).map kv.Word).Nodup ∧
    (sortedList sampleEnum).Pairwise (fun a b =>
      b.Count < a.Count ∨ (a.Count = b.Count ∧ strLess a.Word b.Word = true)) :=
  ⟨by decide, by decide, sortedList_sorted_perm sampleTable (by decide) sampleEnum (by decide)⟩

/-! ## The top-N cut -/

theorem length_sortedList (enum : List kv) : (sortedList enum).length = enum.length :=
  (sortSlice_perm enum).length_eq

theorem length_entries (m : Table) : m.entries.length = m.length := by
  simp [Table.entries]

theorem limit_of_pos (topN : Int) (list : List kv) (h1 : 0 < topN)
    (h2 : topN ≤ (list.length : Int)) : limit topN list = topN := by
  unfold limit
  rw [if_neg]
  omega

theorem limit_of_not_pos (topN : Int) (list : List kv)
    (h : topN ≤ 0 ∨ topN > (list.length : Int)) : limit topN list = (list.length : Int) := by
  unfold limit
  rw [if_pos h]

theorem truncate_of_not_pos (topN : Int) (list : List kv)
    (h : topN ≤ 0 ∨ topN > (list.length : Int)) : truncate topN list = list := by
  unfold truncate
  rw [limit_of_not_pos topN list h]
  simp

theorem truncate_of_pos (topN : Int) (list : List kv) (h1 : 0 < topN)
    (h2 : topN ≤ (list.length : Int)) : truncate topN list = list.take topN.toNat := by
  unfold truncate
  rw [limit_of_pos topN list h1 h2]

theorem not_less_count (a b : kv) (h : less b a = false) : b.Count ≤ a.Count := by
  unfold less at h
  by_cases e : b.Count = a.Count
  · omega
  · rw [if_neg e] at h
    have : ¬ b.Count > a.Count := by simpa using h
    omega

theorem displayed_length_counterexample :
    sampleEnum.Perm sampleTable.entries ∧
    ((displayed 0 sampleEnum).length : Int) ≠ min 0 (sampleTable.length : Int) := by
  decide

/-- C11 (amended). For a frequency table enumerated in any order and every `-top`
value `N`, the sorted and truncated list has length `min N size` when `N` is
positive and length `size` (the whole table) when `N` is zero or negative; its
counts are non-increasing. -/
theorem displayed_length_counts (m : Table) (enum : List kv) (he : enum.Perm m.entries)
    (N : Int) :
    (0 < N → (displayed N enum).length = min N.toNat m.length) ∧
    (N ≤ 0 → (displayed N enum).length = m.length) ∧
    (displayed N enum).Pairwise (fun a b => b.Count ≤ a.Count) := by
  have hlen : (sortedList enum).length = m.length := by
    rw [length_sortedList, he.length_eq, length_entries]
  refine ⟨?_, ?_, ?_⟩
  · intro hN
    unfold displayed
    by_cases h : N ≤ ((sortedList enum).length : Int)
    · rw [truncate_of_pos N _ hN h, List.length_take, hlen]
    · rw [truncate_of_not_pos N _ (Or.inr (by omega)), hlen]
      rw [hlen] at h
      omega
  · intro hN
    unfold displayed
    rw [truncate_of_not_pos N _ (Or.inl hN), hlen]
  · have h1 : (sortedList enum).Pairwise (fun a b => less b a = false) := sortSlice_sorted enum
    have h2 : (sortedList enum).Pairwise (fun a b => b.Count ≤ a.Count) :=
      h1.imp (fun h => not_less_count _ _ h)
    exact h2.sublist (List.take_sublist _ _)

theorem displayed_length_counts_witness :
    sampleEnum.Perm sampleTable.entries ∧
    (0 < (2 : Int) → (displayed 2 sampleEnum).length = min (2 : Int).toNat sampleTable.length) ∧
    ((2 : Int) ≤ 0 → (displayed 2 sampleEnum).length = sampleTable.length) ∧
    (displayed 2 sampleEnum).Pairwise (fun a b => b.Count ≤ a.Count) :=
  ⟨by decide, displayed_length_counts sampleTable sampleEnum (by decide) 2⟩

/-- C12. The `-top` limit is applied to the sorted list.  When `N` is zero, negative
or larger than the table size the displayed list is the whole sorted list;
otherwise it is the first `N` entries of the sorted list.  Every entry of the
sorted list that is left out comes no earlier in the order of `main` than every
displayed entry: it is not less than it, and its count is not larger. -/
theorem displayed_top (m : Table) (enum : List kv) (he : enum.Perm m.entries) (N : Int) :
    (N ≤ 0 ∨ N > (m.length : Int) → displayed N enum = sortedList enum) ∧
    (0 < N ∧ N ≤ (m.length : Int) → displayed N enum = (sortedList enum).take N.toNat) ∧
    (∀ a ∈ displayed N enum, ∀ b ∈ sortedList enum, b ∉ displayed N enum →
      less b a = false ∧ b.Count ≤ a.Count) := by
  have hlen : (sortedList enum).length = m.length := by
    rw [length_sortedList, he.length_eq, length_entries]
  refine ⟨?_, ?_, ?_⟩
  · intro h
    unfold displayed
    exact truncate_of_not_pos N _ (by rw [hlen]; exact h)
  · intro h
    unfold displayed
    exact truncate_of_pos N _ h.1 (by rw [hlen]; exact h.2)
  · intro a ha b hb hnb
    unfold displayed truncate at ha hnb
    have hsplit := List.take_append_drop (limit N (sortedList enum)).toNat (sortedList enum)
    have hb2 : b ∈ (sortedList enum).drop (limit N (sortedList enum)).toNat := by
      rw [← hsplit] at hb
      rcases List.mem_append.1 hb with h | h
      · exact absurd h hnb
      · exact h
    have hs : (sortedList enum).Pairwise (fun a b => less b a = false) := sortSlice_sorted enum
    rw [← hsplit] at hs
    have := (List.pairwise_append.1 hs).2.2 a ha b hb2
    exact ⟨this, not_less_count _ _ this⟩

theorem displayed_top_witness :
    sampleEnum.Perm sampleTable.entries ∧
    ((2 : Int) ≤ 0 ∨ (2 : Int) > (sampleTable.length : Int) →
      displayed 2 sampleEnum = sortedList sampleEnum) ∧
    (0 < (2 : Int) ∧ (2 : Int) ≤ (sampleTable.length : Int) →
      displayed 2 sampleEnum = (sortedList sampleEnum).take (2 : Int).toNat) ∧
    (∀ a ∈ displayed 2 sampleEnum, ∀ b ∈ sortedList sampleEnum, b ∉ displayed 2 sampleEnum →
      less b a = false ∧ b.Count ≤ a.Count) :=
  ⟨by decide, displayed_top sampleTable sampleEnum (by decide) 2⟩

/-! ## Source selection -/

/-- C13. The input source of `main` is the `-file` path when that is non-empty;
otherwise the first positional argument when there is one and it is non-empty;
otherwise standard input.  With a non-empty `-file` the positional arguments have
no influence. -/
theorem inputSource_spec (filePath : String) (args : List String) :
    (filePath ≠ "" → inputSource filePath args = Source.file filePath) ∧
    (filePath = "" → ∀ a rest, args = a :: rest → a ≠ "" →
      inputSource filePath args = Source.file a) ∧
    (filePath = "" → ∀ rest, args = "" :: rest → inputSource filePath args = Source.stdin) ∧
    (filePath = "" → args = [] → inputSource filePath args = Source.stdin) ∧
    (filePath ≠ "" → ∀ others, inputSource filePath others = inputSource filePath args) := by
  refine ⟨?_, ?_, ?_, ?_, ?_⟩
  · intro h
    simp [inputSource, resolvedPath, h]
  · intro h a rest e ha
    subst h e
    simp [inputSource, resolvedPath, Arg, ha]
  · intro h rest e
    subst h e
    simp [inputSource, resolvedPath, Arg]
  · intro h e
    subst h e
    simp [inputSource, resolvedPath]
  · intro h others
    simp [inputSource, resolvedPath, h]

/-! ## Independence of the enumeration order -/

theorem less_irrefl (a : kv) : less a a = false := by
  simp [less, strLess_irrefl]

theorem less_total (a b : kv) (h : a ≠ b) : less a b = true ∨ less b a = true := by
  unfold less
  by_cases e : a.Count = b.Count
  · rw [if_pos e, if_pos e.symm]
    apply strLess_total
    intro hw
    apply h
    cases a
    cases b
    simp only [kv.mk.injEq]
    exact ⟨hw, e⟩
  · have e2 : ¬ b.Count = a.Count := fun x => e x.symm
    rw [if_neg e, if_neg e2]
    simp only [decide_eq_true_eq]
    omega

theorem sorted_perm_unique (l1 l2 : List kv) (hp : l1.Perm l2)
    (h1 : l1.Pairwise (fun a b => less b a = false))
    (h2 : l2.Pairwise (fun a b => less b a = false)) : l1 = l2 := by
  haveI : IsAntisymm kv (fun a b => less b a = false) :=
    ⟨fun a b hab hba => by
      by_contra hne
      rcases less_total a b hne with h | h
      · rw [hba] at h
        cases h
      · rw [hab] at h
        cases h⟩
  exact List.eq_of_perm_of_sorted hp h1 h2

theorem sortSlice_congr (l1 l2 : List kv) (hp : l1.Perm l2) : sortSlice l1 = sortSlice l2 :=
  sorted_perm_unique _ _ (((sortSlice_perm l1).trans hp).trans (sortSlice_perm l2).symm)
    (sortSlice_sorted l1) (sortSlice_sorted l2)

/-- C17. The displayed list depends on the table only.  The comparison of `main` is
a strict total order on entries (irreflexive, transitive, and any two distinct
entries are ordered one way or the other), so for any two enumeration orders of
the map the sorted and truncated lists are the same; moreover every sorted
permutation of the entries, whatever sorting procedure produced it, is the list
`main` obtains. -/
theorem displayed_enum_independent (m : Table) (enum1 enum2 : List kv)
    (h1 : enum1.Perm m.entries) (h2 : enum2.Perm m.entries) (N : Int) :
    displayed N enum1 = displayed N enum2 ∧
    sortedList enum1 = sortedList enum2 ∧
    (∀ l : List kv, l.Perm m.entries → l.Pairwise (fun a b => less b a = false) →
      l = sortedList enum1) ∧
    (∀ a, less a a = false) ∧
    (∀ a b c, less a b = true → less b c = true → less a c = true) ∧
    (∀ a b, a ≠ b → less a b = true ∨ less b a = true) := by
  have hs : sortedList enum1 = sortedList enum2 := sortSlice_congr _ _ (h1.trans h2.symm)
  refine ⟨?_, hs, ?_, less_irrefl, less_trans, less_total⟩
  · unfold displayed
    rw [hs]
  · intro l hl hsorted
    exact sorted_perm_unique _ _ (hl.trans (h1.symm.trans (sortSlice_perm enum1).symm))
      hsorted (sortSlice_sorted enum1)

theorem displayed_enum_independent_witness :
    sampleEnum.Perm sampleTable.entries ∧ sampleTable.entries.Perm sampleTable.entries ∧
    displayed 2 sampleEnum = displayed 2 sampleTable.entries ∧
    sortedList sampleEnum = sortedList sampleTable.entries ∧
    (∀ l : List kv, l.Perm sampleTable.entries → l.Pairwise (fun a b => less b a = false) →
      l = sortedList sampleEnum) ∧
    (∀ a, less a a = false) ∧
    (∀ a b c, less a b = true → less b c = true → less a c = true) ∧
    (∀ a b, a ≠ b → less a b = true ∨ less b a = true) :=
  ⟨by decide, List.Perm.refl _,
    displayed_enum_independent sampleTable sampleEnum sampleTable.entries (by decide)
      (List.Perm.refl _) 2⟩

/-! ## Separators split the text -/

theorem scan_append_sep (U : UnicodeTables) (c : Char) (b : List Char)
    (hc : inClass U c = false) :
    ∀ (a : List Char) (pos : Nat) (st : Option Nat),
      scan U pos st (a ++ c :: b) = scan U pos st a ++ scan U (pos + a.length + 1) none b := by
  intro a
  induction a with
  | nil =>
    intro pos st
    cases st <;> simp [scan, hc]
  | cons x a ih =>
    intro pos st
    have e : pos + (x :: a).length + 1 = pos + 1 + a.length + 1 := by
      simp only [List.length_cons]
      omega
    rw [e]
    cases st with
    | none =>
      by_cases hx : inClass U x = true
      · simp only [List.cons_append, scan, hx, if_true]
        exact ih _ _
      · simp only [List.cons_append, scan, hx]
        exact ih _ _
    | some i =>
      by_cases hx : inClass U x = true
      · simp only [List.cons_append, scan, hx, if_true]
        exact ih _ _
      · have hx2 : inClass U x = false := by simpa using hx
        simp only [List.cons_append, scan, hx2]
        exact congrArg (List.cons (i, pos)) (ih (pos + 1) none)

theorem scan_shift (U : UnicodeTables) (k : Nat) :
    ∀ (cs : List Char) (pos : Nat) (st : Option Nat),
      scan U (pos + k) (st.map (fun i => i + k)) cs
        = (scan U pos st cs).map (fun m => (m.1 + k, m.2 + k)) := by
  intro cs
  induction cs with
  | nil =>
    intro pos st
    cases st <;> simp [scan]
  | cons x cs ih =>
    intro pos st
    have e : pos + k + 1 = pos + 1 + k := by omega
    cases st with
    | none =>
      by_cases hx : inClass U x = true
      · simp only [Option.map_none', scan, hx, if_true]
        rw [e]
        exact ih (pos + 1) (some pos)
      · simp only [Option.map_none', scan, hx]
        rw [e]
        exact ih (pos + 1) none
    | some i =>
      by_cases hx : inClass U x = true
      · simp only [Option.map_some', scan, hx, if_true]
        rw [e]
        exact ih (pos + 1) (some i)
      · have hx2 : inClass U x = false := by simpa using hx
        simp only [Option.map_some', scan, hx2]
        rw [e]
        exact congrArg (List.cons (i + k, pos + k)) (ih (pos + 1) none)

theorem slice_append_left (a r : List Char) (i j : Nat) (hij : i ≤ j) (hj : j ≤ a.length) :
    slice (a ++ r) i j = slice a i j := by
  unfold slice
  rw [List.drop_append_of_le_length (by omega)]
  rw [List.take_append_of_le_length (by simp; omega)]

theorem slice_append_right (a b : List Char) (i j : Nat) :
    slice (a ++ b) (i + a.length) (j + a.length) = slice b i j := by
  unfold slice
  have e1 : i + a.length = a.length + i := by omega
  have e2 : j + a.length - (a.length + i) = j - i := by omega
  rw [e1, List.drop_append, e2]

theorem FindAllString_append_sep (U : UnicodeTables) (a b : List Char) (c : Char)
    (hc : inClass U c = false) :
    FindAllString U (a ++ c :: b) = FindAllString U a ++ FindAllString U b := by
  unfold FindAllString FindAllStringIndex
  rw [scan_append_sep U c b hc a 0 none, List.map_append]
  congr 1
  · apply List.map_congr_left
    intro m hm
    have hr := FindAllStringIndex_run U a m hm
    exact slice_append_left a (c :: b) m.1 m.2 (by have := hr.1; omega) hr.2.1
  · have hs := scan_shift U (a.length + 1) b 0 none
    simp only [Option.map_none', Nat.zero_add] at hs
    rw [Nat.zero_add, hs, List.map_map]
    apply List.map_congr_left
    intro m _
    have e : a ++ c :: b = (a ++ [c]) ++ b := by simp
    have hl : (a ++ [c]).length = a.length + 1 := by simp
    simp only [Function.comp]
    rw [e, ← hl]
    exact slice_append_right (a ++ [c]) b m.1 m.2

theorem occurrences_append (U : UnicodeTables) (x y : List (List Char)) (w : List Char) :
    occurrences U (x ++ y) w = occurrences U x w + occurrences U y w := by
  simp [occurrences, List.countP_append]

/-- C14. A single non-class rune `c` between two texts splits the tokens: the
tokens of `a ++ c ++ b` are the tokens of `a` followed by the tokens of `b`, so
the table of `a ++ c ++ b` holds for every word the sum of its counts in the
tables of `a` and of `b`, and its keys are those of either table.  With tables
that agree with Unicode on ASCII, `hello-world` yields exactly `hello: 1` and
`world: 1`. -/
theorem FindAllString_separator (U : UnicodeTables) (a b : List Char) (c : Char)
    (hc : inClass U c = false) :
    FindAllString U (a ++ c :: b) = FindAllString U a ++ FindAllString U b ∧
    (∀ w, (countText U (a ++ c :: b)).get w = (countText U a).get w + (countText U b).get w) ∧
    (∀ w, w ∈ (countText U (a ++ c :: b)).keys
      ↔ w ∈ (countText U a).keys ∨ w ∈ (countText U b).keys) ∧
    (AgreesOnASCII U →
      countText U "hello-world".data = [("hello".data, 1), ("world".data, 1)]) := by
  have ht := FindAllString_append_sep U a b c hc
  refine ⟨ht, ?_, ?_, ?_⟩
  · intro w
    rw [countText_get, countText_get, countText_get, ht, occurrences_append]
  · intro w
    rw [countText_keys, countText_keys, countText_keys, ht, occurrences_append]
    omega
  · intro hU
    rw [countText_ascii U hU _ (by decide)]
    decide

theorem FindAllString_separator_witness :
    inClass asciiTables (Char.ofNat 45) = false ∧
    FindAllString asciiTables ("hello".data ++ Char.ofNat 45 :: "world".data)
      = FindAllString asciiTables "hello".data ++ FindAllString asciiTables "world".data ∧
    (∀ w, (countText asciiTables ("hello".data ++ Char.ofNat 45 :: "world".data)).get w
      = (countText asciiTables "hello".data).get w
        + (countText asciiTables "world".data).get w) ∧
    (∀ w, w ∈ (countText asciiTables ("hello".data ++ Char.ofNat 45 :: "world".data)).keys
      ↔ w ∈ (countText asciiTables "hello".data).keys
        ∨ w ∈ (countText asciiTables "world".data).keys) ∧
    (AgreesOnASCII asciiTables →
      countText asciiTables "hello-world".data = [("hello".data, 1), ("world".data, 1)]) :=
  ⟨by decide,
    FindAllString_separator asciiTables "hello".data "world".data (Char.ofNat 45) (by decide)⟩

/-! ## The shape of the keys -/

theorem FindAllString_class (U : UnicodeTables) (s t : List Char)
    (ht : t ∈ FindAllString U s) (c : Char) (hc : c ∈ t) : inClass U c = true := by
  obtain ⟨m, hm, rfl⟩ := List.mem_map.1 ht
  have hr := FindAllStringIndex_run U s m hm
  obtain ⟨p, hp1, hp2, hp3⟩ := mem_slice hc
  have := hr.2.2.1 p hp2 hp1
  rwa [classAt_of_get hp3] at this

theorem mem_keys_countText {U : UnicodeTables} {s k : List Char}
    (hk : k ∈ (countText U s).keys) : ∃ t ∈ FindAllString U s, normalize U t = k := by
  rw [countText_keys] at hk
  exact occurrences_pos hk

theorem unicodeToLower_of_capital (U : UnicodeTables) (c : Char)
    (h : 65 ≤ c.toNat ∧ c.toNat ≤ 90) : (unicodeToLower U c).toNat = c.toNat + 32 := by
  unfold unicodeToLower
  rw [if_pos (by omega), if_pos h, ofNat_add_32_toNat _ h.1 h.2]

theorem unicodeToLower_of_ascii_not_capital (U : UnicodeTables) (c : Char)
    (h1 : c.toNat ≤ 127) (h2 : ¬ (65 ≤ c.toNat ∧ c.toNat ≤ 90)) : unicodeToLower U c = c := by
  unfold unicodeToLower
  rw [if_pos h1, if_neg h2]

theorem normalize_fixed (U : UnicodeTables) (h2 : LowerIdempotent U) (t : List Char)
    (ht : ∀ c ∈ t, inClass U c = true) :
    ToLower U (normalize U t) = normalize U t ∧
    normalize U (normalize U t) = normalize U t := by
  have hfix : ∀ d ∈ normalize U t, unicodeToLower U d = d := by
    intro d hd
    obtain ⟨c, hc, e⟩ := mem_normalize hd
    rw [← e]
    exact h2 c (ht c hc)
  have hlow : ToLower U (normalize U t) = normalize U t := by
    unfold ToLower
    rw [List.map_congr_left hfix, List.map_id']
  refine ⟨hlow, ?_⟩
  have hfil : ReplaceAllApostrophe (normalize U t) = normalize U t := by
    unfold ReplaceAllApostrophe
    rw [List.filter_eq_self]
    intro d hd
    have : d ∈ ReplaceAllApostrophe (ToLower U t) := hd
    unfold ReplaceAllApostrophe at this
    exact (List.mem_filter.1 this).2
  calc normalize U (normalize U t)
      = ReplaceAllApostrophe (ToLower U (normalize U t)) := rfl
    _ = ReplaceAllApostrophe (normalize U t) := by rw [hlow]
    _ = normalize U t := hfil

/-- C15. When the read succeeds, and lower-casing maps class runes to class runes
and is idempotent on them, every key of the returned table holds no apostrophe and
no non-class rune, and is a fixed point of normalization: lower-casing it, and
lower-casing it and deleting its apostrophes, both return the key; every rune of
the key is its own lower-case form and none is one of `A`..`Z`. -/
theorem CountWords_keys_normal (U : UnicodeTables) (h1 : LowerKeepsClass U)
    (h2 : LowerIdempotent U) (r : Reader) (hr : readError r = none) :
    ∃ table, CountWords U r = (some table, none) ∧
      ∀ k ∈ table.keys,
        apostrophe ∉ k ∧ (∀ c ∈ k, inClass U c = true) ∧
        normalize U k = k ∧ ToLower U k = k ∧
        (∀ c ∈ k, unicodeToLower U c = c) ∧
        (∀ c ∈ k, ¬ (65 ≤ c.toNat ∧ c.toNat ≤ 90)) := by
  refine ⟨_, CountWords_of_success U r hr, ?_⟩
  intro k hk
  obtain ⟨t, ht, rfl⟩ := mem_keys_countText hk
  have hcl := FindAllString_class U _ t ht
  have hfix : ∀ d ∈ normalize U t, unicodeToLower U d = d := by
    intro d hd
    obtain ⟨c, hc, e⟩ := mem_normalize hd
    rw [← e]
    exact h2 c (hcl c hc)
  refine ⟨?_, ?_, (normalize_fixed U h2 t hcl).2, (normalize_fixed U h2 t hcl).1, hfix, ?_⟩
  · intro h
    simp [normalize, ReplaceAllApostrophe] at h
  · intro d hd
    obtain ⟨c, hc, e⟩ := mem_normalize hd
    rw [← e]
    exact h1 c (hcl c hc)
  · intro d hd hcap
    have e1 := unicodeToLower_of_capital U d hcap
    rw [hfix d hd] at e1
    omega

theorem lowerKeepsClass_asciiTables : LowerKeepsClass asciiTables := by
  intro c hc
  by_cases h1 : c.toNat ≤ 127
  · by_cases h2 : 65 ≤ c.toNat ∧ c.toNat ≤ 90
    · have e := unicodeToLower_of_capital asciiTables c h2
      generalize unicodeToLower asciiTables c = d at e
      simp only [inClass, asciiTables, Bool.or_eq_true, Bool.and_eq_true, decide_eq_true_eq]
      left
      left
      right
      omega
    · rw [unicodeToLower_of_ascii_not_capital asciiTables c h1 h2]
      exact hc
  · have e : unicodeToLower asciiTables c = c := by
      unfold unicodeToLower
      rw [if_neg h1]
      rfl
    rw [e]
    exact hc

theorem lowerIdempotent_asciiTables : LowerIdempotent asciiTables := by
  intro c _
  by_cases h1 : c.toNat ≤ 127
  · by_cases h2 : 65 ≤ c.toNat ∧ c.toNat ≤ 90
    · have e := unicodeToLower_of_capital asciiTables c h2
      exact unicodeToLower_of_ascii_not_capital asciiTables _ (by omega) (by omega)
    · rw [unicodeToLower_of_ascii_not_capital asciiTables c h1 h2]
      exact unicodeToLower_of_ascii_not_capital asciiTables c h1 h2
  · have e : unicodeToLower asciiTables c = c := by
      unfold unicodeToLower
      rw [if_neg h1]
      rfl
    rw [e, e]

theorem CountWords_keys_normal_witness :
    LowerKeepsClass asciiTables ∧ LowerIdempotent asciiTables ∧
    readError testReader = none ∧
    ∃ table, CountWords asciiTables testReader = (some table, none) ∧
      ∀ k ∈ table.keys,
        apostrophe ∉ k ∧ (∀ c ∈ k, inClass asciiTables c = true) ∧
        normalize asciiTables k = k ∧ ToLower asciiTables k = k ∧
        (∀ c ∈ k, unicodeToLower asciiTables c = c) ∧
        (∀ c ∈ k, ¬ (65 ≤ c.toNat ∧ c.toNat ≤ 90)) :=
  ⟨lowerKeepsClass_asciiTables, lowerIdempotent_asciiTables, by decide,
    CountWords_keys_normal asciiTables lowerKeepsClass_asciiTables
      lowerIdempotent_asciiTables testReader (by decide)⟩

/-! ## The empty key -/

theorem apostrophe_toNat : apostrophe.toNat = 39 := rfl

theorem unicodeToLower_eq_apostrophe (U : UnicodeTables) (hU : LowerNeverApostrophe U)
    (c : Char) : unicodeToLower U c = apostrophe ↔ c = apostrophe := by
  constructor
  · intro h
    by_cases h1 : c.toNat ≤ 127
    · by_cases h2 : 65 ≤ c.toNat ∧ c.toNat ≤ 90
      · have e := unicodeToLower_of_capital U c h2
        rw [h, apostrophe_toNat] at e
        omega
      · rw [unicodeToLower_of_ascii_not_capital U c h1 h2] at h
        exact h
    · have e : unicodeToLower U c = U.lowerTable c := by
        unfold unicodeToLower
        rw [if_neg h1]
      rw [e] at h
      exact absurd h (hU c (by omega))
  · intro h
    rw [h]
    rfl

theorem normalize_eq_nil_iff (U : UnicodeTables) (hU : LowerNeverApostrophe U)
    (t : List Char) : normalize U t = [] ↔ apostropheOnly t = true := by
  unfold normalize ReplaceAllApostrophe ToLower apostropheOnly
  rw [List.filter_eq_nil_iff, List.all_eq_true]
  constructor
  · intro h c hc
    have := h (unicodeToLower U c) (List.mem_map.2 ⟨c, hc, rfl⟩)
    have e : unicodeToLower U c = apostrophe := by simpa using this
    have := (unicodeToLower_eq_apostrophe U hU c).1 e
    simp [this]
  · intro h d hd
    obtain ⟨c, hc, e⟩ := List.mem_map.1 hd
    have hc2 : c = apostrophe := by simpa using h c hc
    rw [← e, hc2]
    simp [unicodeToLower_apostrophe]

theorem occurrences_nil (U : UnicodeTables) (hU : LowerNeverApostrophe U)
    (ws : List (List Char)) : occurrences U ws [] = ws.countP apostropheOnly := by
  unfold occurrences
  apply List.countP_congr
  intro t _
  simp only [decide_eq_true_eq]
  exact normalize_eq_nil_iff U hU t

theorem CountWords_apostropheReader (U : UnicodeTables) :
    CountWords U apostropheReader = (some [([], 1)], none) := by
  have h : inClass U apostrophe = true := by simp [inClass]
  have hd : decodeUTF8 (delivered apostropheReader) = [apostrophe] := by decide
  rw [CountWords_of_success U _ (by decide), hd]
  simp [countText, FindAllString, FindAllStringIndex, scan, h, slice, countLoop, Table.incr,
    Table.set, Table.get]
  rfl

/-- C16. Keys may be empty.  On the one-byte input that is a single apostrophe
`CountWords` returns the table with the empty string counted once.  In general,
when the read succeeds (and the case table never yields an apostrophe), the count
stored for the empty string is the number of tokens made of apostrophes only, and
the empty string is a key exactly when the input has such a token. -/
theorem CountWords_apostrophe_key (U : UnicodeTables) (hU : LowerNeverApostrophe U) (r : Reader)
    (hr : readError r = none) :
    CountWords U apostropheReader = (some [([], 1)], none) ∧
    ∃ table, CountWords U r = (some table, none) ∧
      table.get [] = (FindAllString U (decodeUTF8 (delivered r))).countP apostropheOnly ∧
      ([] ∈ table.keys ↔
        ∃ t ∈ FindAllString U (decodeUTF8 (delivered r)), t ≠ [] ∧ ∀ c ∈ t, c = apostrophe) := by
  refine ⟨CountWords_apostropheReader U, _, CountWords_of_success U r hr, ?_, ?_⟩
  · rw [countText_get, occurrences_nil U hU]
  · rw [countText_keys, occurrences_nil U hU]
    constructor
    · intro h
      obtain ⟨t, ht, e⟩ := List.countP_pos_iff.1 h
      refine ⟨t, ht, ?_, ?_⟩
      · intro hnil
        obtain ⟨m, hm, e2⟩ := List.mem_map.1 ht
        have hrun := FindAllStringIndex_run U _ m hm
        have hl := length_slice _ m.1 m.2 hrun.2.1
        rw [e2, hnil] at hl
        have := hrun.1
        simp at hl
        omega
      · intro c hc
        have := List.all_eq_true.1 e c hc
        simpa using this
    · rintro ⟨t, ht, _, hall⟩
      apply List.countP_pos_iff.2
      refine ⟨t, ht, ?_⟩
      unfold apostropheOnly
      rw [List.all_eq_true]
      intro c hc
      simp [hall c hc]

theorem lowerNeverApostrophe_asciiTables : LowerNeverApostrophe asciiTables := by
  intro c hc h
  have e : c = apostrophe := h
  rw [e, apostrophe_toNat] at hc
  omega

theorem CountWords_apostrophe_key_witness :
    LowerNeverApostrophe asciiTables ∧ readError quoteReader = none ∧
    CountWords asciiTables apostropheReader = (some [([], 1)], none) ∧
    ∃ table, CountWords asciiTables quoteReader = (some table, none) ∧
      table.get []
        = (FindAllString asciiTables (decodeUTF8 (delivered quoteReader))).countP
            apostropheOnly ∧
      ([] ∈ table.keys ↔
        ∃ t ∈ FindAllString asciiTables (decodeUTF8 (delivered quoteReader)),
          t ≠ [] ∧ ∀ c ∈ t, c = apostrophe) :=
  ⟨lowerNeverApostrophe_asciiTables, by decide,
    CountWords_apostrophe_key asciiTables lowerNeverApostrophe_asciiTables quoteReader (by decide)⟩

end WordCounter
